import Mathlib

/-
Verification of the Workplan-App scheduling engine.

This file gives a shallow embedding, in Lean 4, of the scheduling core of the
repository (src/person.py and src/scheduler.py) and proves properties of it.

Modelling conventions:
* The fixed catalog of days (`Montag` .. `Freitag`) and time blocks
  (`10-12`, `12-14`, `14-16`, `16-18`) becomes two small inductive types;
  `all_blocks` is the day-major cross product, exactly as
  `self.blocks = [(day, time) for day in self.days for time in self.times]`.
* A `Person` carries the fields of person.py: name, availability dictionary
  (totalised to a function, absent entries read as 0, matching
  `self.availability.get(block, 0)`), `max_blocks`, and the mutable
  `assigned_blocks` list.
* The mutable state of `_generate_single_plan` (the Person objects of the
  shuffled list `persons_sorted`, plus the `slots` mapping from block to the
  list of assigned names) becomes an explicit state record `SState` threaded
  through folds; Python `for` loops become `List.foldl`.
* Python's stable `list.sort(key=...)` becomes an insertion sort
  (`stable_sort`) that keeps the original order of key-equal elements;
  sort keys are translated tuple-for-tuple from the source.
* `random.shuffle(persons_sorted)` (scheduler.py line 134, executed
  unconditionally) is modelled by an explicit oracle
  `shuffle : List Person → List Person` supplied to the generation function:
  the permutation that the global random number generator would apply.
  `random.seed(seed)` only fixes that oracle when a seed is given; with
  `seed = None` the oracle is whatever the ambient global state yields.
* The final pandas step builds a DataFrame from `plan_data` and then reads
  `df["Person"]`; on an empty `plan_data` the DataFrame has no columns and
  that subscript raises `KeyError: 'Person'`.  Fallible behaviour is modelled
  with `Except`.
-/

namespace Workplan

/- The five days of `self.days = ['Montag', 'Dienstag', 'Mittwoch', 'Donnerstag', 'Freitag']`. -/
inductive Day where
  | Montag
  | Dienstag
  | Mittwoch
  | Donnerstag
  | Freitag
deriving DecidableEq

/- The four time blocks of `self.times = ['10-12', '12-14', '14-16', '16-18']`. -/
inductive Time where
  | t10_12
  | t12_14
  | t14_16
  | t16_18
deriving DecidableEq

/- Catalog position of a day in `self.days`. -/
def Day.idx : Day → Nat
  | .Montag => 0
  | .Dienstag => 1
  | .Mittwoch => 2
  | .Donnerstag => 3
  | .Freitag => 4

/- The German day-name string of each `Day`, as a list of characters.  These
are the actual `str` values found in `self.days`; Python compares them
lexicographically by code point when they appear in a sort key. -/
def Day.chars : Day → List Char
  | .Montag => ['M', 'o', 'n', 't', 'a', 'g']
  | .Dienstag => ['D', 'i', 'e', 'n', 's', 't', 'a', 'g']
  | .Mittwoch => ['M', 'i', 't', 't', 'w', 'o', 'c', 'h']
  | .Donnerstag => ['D', 'o', 'n', 'n', 'e', 'r', 's', 't', 'a', 'g']
  | .Freitag => ['F', 'r', 'e', 'i', 't', 'a', 'g']

/- Result of `self.times.index(t)`. -/
def Time.idx : Time → Nat
  | .t10_12 => 0
  | .t12_14 => 1
  | .t14_16 => 2
  | .t16_18 => 3

def days : List Day := [.Montag, .Dienstag, .Mittwoch, .Donnerstag, .Freitag]

def times : List Time := [.t10_12, .t12_14, .t14_16, .t16_18]

/- A (day, time) pair, the identity of one slot of the roster. -/
abbrev Block := Day × Time

/- `self.blocks = [(day, time) for day in self.days for time in self.times]`. -/
def all_blocks : List Block := days.flatMap (fun d => times.map (fun t => (d, t)))

/- Lexicographic comparison of Python strings by code point, on their
character lists; `Char.val`-order coincides with Python's `<` on `str`
for these day names. -/
def pyStrLt : List Char → List Char → Bool
  | [], [] => false
  | [], _ :: _ => true
  | _ :: _, [] => false
  | c :: cs, d :: ds =>
    if c.val < d.val then true
    else if d.val < c.val then false
    else pyStrLt cs ds

/- person.py: one employee.  `availability` is the dictionary built by
`parse_availability`, totalised over the catalog (missing entries are 0,
which is also how `wants_block` reads the dictionary). -/
structure Person where
  name : String
  availability : Block → Nat
  max_blocks : Nat
  assigned_blocks : List Block

instance : Inhabited Person := ⟨⟨"", fun _ => 0, 0, []⟩⟩

/- `block_hours = {'10-12': 2, '12-14': 2, '14-16': 2, '16-18': 2}` (both in
`Person.assigned_hours` and in step 9 of `_generate_single_plan`). -/
def block_hours : Time → Nat
  | .t10_12 => 2
  | .t12_14 => 2
  | .t14_16 => 2
  | .t16_18 => 2

/- `Person.available_blocks_count` with its default `min_level = 1`:
`sum(1 for v in self.availability.values() if v >= min_level)`; the
dictionary's keys are exactly the catalog blocks. -/
def Person.available_blocks_count (p : Person) : Nat :=
  (all_blocks.filter (fun b => 1 ≤ p.availability b)).length

/- `Person.can_receive_block`: `block in self.availability and self.availability[block] > 0`. -/
def Person.can_receive_block (p : Person) (b : Block) : Bool :=
  0 < p.availability b

/- `Person.wants_block`: `self.availability.get(block, 0)`. -/
def Person.wants_block (p : Person) (b : Block) : Nat :=
  p.availability b

/- `Person.assigned_hours`: `sum(block_hours[time] for (day, time) in self.assigned_blocks)`. -/
def Person.assigned_hours (p : Person) : Nat :=
  (p.assigned_blocks.map (fun b => block_hours b.2)).sum

/- `Person.add_block`: `self.assigned_blocks.append(block)`. -/
def Person.add_block (p : Person) (b : Block) : Person :=
  { p with assigned_blocks := p.assigned_blocks ++ [b] }

/- The times of the person's assigned blocks on one day,
`[t for d, t in person.assigned_blocks if d == day]` (scheduler.py line 283). -/
def assigned_on_day (p : Person) (d : Day) : List Time :=
  (p.assigned_blocks.filter (fun b => b.1 = d)).map Prod.snd

/- `Scheduler._would_create_gap_sequence` (scheduler.py lines 256-298),
translated clause by clause.  `sorted(set(assigned + [time]), key=self.times.index)`
is rendered as the filter of the ordered catalog list `times` by membership,
which is the same duplicate-free, index-sorted list. -/
def would_create_gap_sequence (p : Person) (nb : Block) : Bool :=
  let available := times.filter (fun t => 1 ≤ p.availability (nb.1, t))
  if available.length < 3 then false
  else
    let assigned := assigned_on_day p nb.1
    let test_blocks := times.filter (fun t => t ∈ assigned ++ [nb.2])
    let idxs := test_blocks.map Time.idx
    let first_idx := idxs.min?.getD 0
    let last_idx := idxs.max?.getD 0
    (List.range' first_idx (last_idx + 1 - first_idx)).any
      (fun i =>
        let t := times.getD i .t10_12
        decide (t ∈ available) && ! decide (t ∈ test_blocks))

/-
Python's `list.sort(key=...)` is a stable sort: elements are ordered by key
and key-equal elements keep their original relative order.  For a strict
total preorder `lt` on keys that output is unique, so the insertion sort
below (which inserts each element after all earlier, not-greater elements)
computes exactly it.
-/

def insert_stable (lt : α → α → Bool) (x : α) : List α → List α
  | [] => [x]
  | y :: ys => if lt x y then x :: y :: ys else y :: insert_stable lt x ys

def stable_sort (lt : α → α → Bool) (l : List α) : List α :=
  l.foldl (fun acc x => insert_stable lt x acc) []

/- Python `<` on tuples of three integers, lexicographic. -/
def tuple3Lt (a b : Int × Int × Int) : Bool :=
  decide (a.1 < b.1 ∨ (a.1 = b.1 ∧ (a.2.1 < b.2.1 ∨ (a.2.1 = b.2.1 ∧ a.2.2 < b.2.2))))

/- The mutable state of one `_generate_single_plan` run: the Person objects
(in the iteration order `persons_sorted`) and the `slots` map from block to
the list of names assigned so far. -/
structure SState where
  persons : List Person
  slots : Block → List String

/- Read the i-th person of `persons_sorted` (all loops index into it). -/
def getP (st : SState) (i : Nat) : Person :=
  st.persons.getD i default

def list_modify (f : α → α) : Nat → List α → List α
  | _, [] => []
  | 0, x :: xs => f x :: xs
  | n + 1, x :: xs => x :: list_modify f n xs

/- The two mutations of one assignment: `p.add_block(block)` followed by
`slots[block].append(p.name)`. -/
def commit (st : SState) (i : Nat) (b : Block) : SState :=
  { persons := list_modify (fun p => p.add_block b) i st.persons
    slots := fun b' => if b' = b then st.slots b' ++ [(getP st i).name] else st.slots b' }

/- `needed = 2 if block[1] == '10-12' else 3`. -/
def needed_for (b : Block) : Nat :=
  if b.2 = Time.t10_12 then 2 else 3

/- First component of the pass-1 and pass-3 sort keys:
`0 if any(d == block[0] for d, t in p.assigned_blocks) else 1`. -/
def day_cont (p : Person) (d : Day) : Int :=
  if p.assigned_blocks.any (fun b => b.1 = d) then 0 else 1

/- Pass-1 sort key (scheduler.py lines 161-168):
`(day continuity, p.assigned_hours(), -p.available_blocks_count())`. -/
def pass1_key (st : SState) (b : Block) (i : Nat) : Int × Int × Int :=
  let p := getP st i
  (day_cont p b.1, (p.assigned_hours : Int), -(p.available_blocks_count : Int))

/- The shared inner loop of passes 1 and 3 (lines 171-177 and 226-231):
`for p in eligible: if len(slots[block]) < needed: if gap: continue; assign`. -/
def assign_step (b : Block) (needed : Nat) (st : SState) (i : Nat) : SState :=
  if (st.slots b).length < needed then
    if would_create_gap_sequence (getP st i) b then st
    else commit st i b
  else st

/- Body of `assign_blocks(priority_level)` for one block (lines 138-177). -/
def assign_blocks_at (level : Nat) (st : SState) (b : Block) : SState :=
  let needed := needed_for b
  if needed ≤ (st.slots b).length then st
  else
    let eligible := (List.range st.persons.length).filter (fun i =>
      let p := getP st i
      decide (p.wants_block b = level) && decide (p.assigned_hours + 2 ≤ p.max_blocks) &&
        p.can_receive_block b)
    let ordered := stable_sort (fun i j => tuple3Lt (pass1_key st b i) (pass1_key st b j)) eligible
    ordered.foldl (assign_step b needed) st

/- `assign_blocks(priority_level)`: one sweep over `self.blocks`. -/
def assign_blocks (level : Nat) (st : SState) : SState :=
  all_blocks.foldl (assign_blocks_at level) st

/- Pass 1 (line 180-181): `for level in [3, 2, 1]: assign_blocks(level)`. -/
def pass1 (st : SState) : SState :=
  assign_blocks 1 (assign_blocks 2 (assign_blocks 3 st))

/- Sort key of the top-up pass, `key=lambda x: (x[0], self.times.index(x[1]))`
(line 193).  `x[0]` is the German day-name string, compared lexicographically. -/
def topup_block_lt (b1 b2 : Block) : Bool :=
  pyStrLt b1.1.chars b2.1.chars ||
    (decide (b1.1.chars = b2.1.chars) && decide (b1.2.idx < b2.2.idx))

/- The candidate list of the top-up pass for person `i` (lines 188-193):
blocks the person can receive and is not yet listed in, sorted by
(day string, time index). -/
def topup_candidates (st : SState) (i : Nat) : List Block :=
  let p := getP st i
  let additional := all_blocks.filter (fun b =>
    p.can_receive_block b && ! decide (p.name ∈ st.slots b))
  stable_sort topup_block_lt additional

/- Inner loop body of the top-up pass (lines 195-201). -/
def topup_step (i : Nat) (st : SState) (b : Block) : SState :=
  let needed := needed_for b
  let p := getP st i
  if (st.slots b).length < needed ∧ p.assigned_hours + 2 ≤ p.max_blocks then
    if would_create_gap_sequence p b then st
    else commit st i b
  else st

/- One person's round of the top-up pass (lines 185-201). -/
def topup_person (st : SState) (i : Nat) : SState :=
  let p := getP st i
  if 5 ≤ p.available_blocks_count ∧ p.assigned_hours < 8 then
    (topup_candidates st i).foldl (topup_step i) st
  else st

/- Pass 2 (lines 185-201): `for p in persons_sorted: ...`. -/
def pass2 (st : SState) : SState :=
  (List.range st.persons.length).foldl topup_person st

/- Pass-3 eligibility (lines 214-217). -/
def backfill_eligible (st : SState) (b : Block) : List Nat :=
  (List.range st.persons.length).filter (fun i =>
    let p := getP st i
    p.can_receive_block b && decide (p.assigned_hours + 2 ≤ p.max_blocks))

/- Pass-3 sort key (lines 218-225):
`(day continuity, -p.available_blocks_count(), p.assigned_hours())`. -/
def pass3_key (st : SState) (b : Block) (i : Nat) : Int × Int × Int :=
  let p := getP st i
  (day_cont p b.1, -(p.available_blocks_count : Int), (p.assigned_hours : Int))

def backfill_ordered (st : SState) (b : Block) : List Nat :=
  stable_sort (fun i j => tuple3Lt (pass3_key st b i) (pass3_key st b j))
    (backfill_eligible st b)

/- Pass 3 body for one free block (lines 209-231). -/
def backfill_at (st : SState) (b : Block) : SState :=
  let needed := needed_for b
  if needed ≤ (st.slots b).length then st
  else (backfill_ordered st b).foldl (assign_step b needed) st

/- Pass 3 (lines 203-231): `free_blocks` is computed once, then filled. -/
def pass3 (st : SState) : SState :=
  let free_blocks := all_blocks.filter (fun b => (st.slots b).length < needed_for b)
  free_blocks.foldl backfill_at st

/- Fresh state: `slots = defaultdict(list)` pre-seeded with every block. -/
def init_state (persons : List Person) : SState :=
  ⟨persons, fun _ => []⟩

/- `persons_sorted = sorted(self.persons, key=lambda p: -p.available_blocks_count())`
(line 133); Python's sort is stable. -/
def sort_persons (persons : List Person) : List Person :=
  stable_sort (fun p q =>
    decide ((-(p.available_blocks_count : Int)) < -(q.available_blocks_count : Int))) persons

/- Passes 1-3 on the shuffled person list. -/
def run_engine (persons_shuffled : List Person) : SState :=
  pass3 (pass2 (pass1 (init_state persons_shuffled)))

/- One row of `plan_data` (step 8). -/
structure PlanRecord where
  day : Day
  time : Time
  person : String
deriving DecidableEq

/- Step 8: `for block in self.blocks: for person_name in slots[block]: append`. -/
def build_plan_data (st : SState) : List PlanRecord :=
  all_blocks.flatMap (fun b => (st.slots b).map (fun n => ⟨b.1, b.2, n⟩))

/- Step 9: `hours_per_person[entry['Person']] += block_hours[entry['Time']]`. -/
def hours_per_person (pd : List PlanRecord) (n : String) : Nat :=
  ((pd.filter (fun r => r.person = n)).map (fun r => block_hours r.time)).sum

/- The returned DataFrame: `plan_data` rows plus the derived `Hours` column. -/
structure Plan where
  rows : List (PlanRecord × Nat)
deriving DecidableEq

instance : DecidableEq (Except String Plan)
  | .ok a, .ok b =>
    match decEq a b with
    | isTrue h => isTrue (by rw [h])
    | isFalse h => isFalse (by intro hc; cases hc; exact h rfl)
  | .ok _, .error _ => isFalse (by intro hc; cases hc)
  | .error _, .ok _ => isFalse (by intro hc; cases hc)
  | .error e, .error f =>
    match decEq e f with
    | isTrue h => isTrue (by rw [h])
    | isFalse h => isFalse (by intro hc; cases hc; exact h rfl)

/- Steps 10-11: `df = pd.DataFrame(plan_data); df["Hours"] = df["Person"].map(...)`.
When `plan_data` is empty the DataFrame has no columns and the subscript
`df["Person"]` raises `KeyError: 'Person'`; otherwise the column access
succeeds and each row gets the person's derived hours. -/
def build_plan (pd : List PlanRecord) : Except String Plan :=
  if pd.isEmpty then Except.error "KeyError: Person"
  else Except.ok ⟨pd.map (fun r => (r, hours_per_person pd r.person))⟩

/- `_generate_single_plan` (lines 97-254).  `shuffle` is the permutation the
global random number generator applies at line 134 (see the header comment):
it acts on the descending-availability-sorted list. -/
def generate_single_plan (persons : List Person) (shuffle : List Person → List Person) :
    Except String Plan :=
  build_plan (build_plan_data (run_engine (shuffle (sort_persons persons))))

/-
The contiguity rule, restated in the spec's vocabulary.
-/

/- Number of time blocks of day `d` with availability at least 1
(the day-local breadth used by the gap check's short-circuit). -/
def day_avail_count (p : Person) (d : Day) : Nat :=
  (times.filter (fun t => 1 ≤ p.availability (d, t))).length

/- The simulated assigned-set of the gap check: the person's current
assignments on the candidate's day plus the candidate's time block. -/
def sim_list (p : Person) (nb : Block) : List Time :=
  assigned_on_day p nb.1 ++ [nb.2]

/- The spec's description of when the gap check rejects: at least 3 blocks
of the day are available, and some available time block outside the
simulated set lies strictly between an earlier and a later member of the
simulated set. -/
def gap_spec_holds (p : Person) (nb : Block) : Prop :=
  3 ≤ day_avail_count p nb.1 ∧
    ∃ t : Time, 1 ≤ p.availability (nb.1, t) ∧ t ∉ sim_list p nb ∧
      (∃ a ∈ sim_list p nb, a.idx < t.idx) ∧
      (∃ b ∈ sim_list p nb, t.idx < b.idx)

/-
Reachability: every state produced by the engine arises from the initial
state by a sequence of `commit`s, each of which was executed only under the
checks the three passes perform right before it: the committing index is a
real position of `persons_sorted`, the slot is still below its required
headcount, the gap check returned False, the person can receive the block,
and the person's capacity check passed at commit time.
-/

def same_core (p q : Person) : Prop :=
  p.name = q.name ∧ p.availability = q.availability ∧ p.max_blocks = q.max_blocks

inductive Reach : SState → SState → Prop where
  | refl (st : SState) : Reach st st
  | step {st st' : SState} (i : Nat) (b : Block) :
      Reach st st' →
      i < st'.persons.length →
      (st'.slots b).length < needed_for b →
      would_create_gap_sequence (getP st' i) b = false →
      0 < (getP st' i).availability b →
      (getP st' i).assigned_hours + 2 ≤ (getP st' i).max_blocks →
      Reach st (commit st' i b)

/-
Invariants preserved along `Reach`.
-/

/- Every slot list stays within its required headcount. -/
def head_inv (st : SState) : Prop :=
  ∀ b : Block, (st.slots b).length ≤ needed_for b

/- Every person stays within their workload cap. -/
def cap_inv (st : SState) : Prop :=
  ∀ i : Nat, (getP st i).assigned_hours ≤ (getP st i).max_blocks

/- The no-gap property of a single person, over their mutable assignment list. -/
def good_person (p : Person) : Prop :=
  ∀ d : Day, 3 ≤ day_avail_count p d →
    ∀ t : Time, 1 ≤ p.availability (d, t) → t ∉ assigned_on_day p d →
      ¬ ((∃ a ∈ assigned_on_day p d, a.idx < t.idx) ∧
         (∃ b ∈ assigned_on_day p d, t.idx < b.idx))

def good_inv (st : SState) : Prop :=
  ∀ i : Nat, good_person (getP st i)

/- Every name listed in a slot belongs to a person who can receive it. -/
def elig_inv (st : SState) : Prop :=
  ∀ b : Block, ∀ n ∈ st.slots b,
    ∃ j, j < st.persons.length ∧ (getP st j).name = n ∧ 0 < (getP st j).availability b

/- Occurrence counts, used to keep `slots` and the persons' assignment lists
in lock-step. -/
def occS (n : String) (l : List String) : Nat :=
  (l.filter (fun m => decide (m = n))).length

def occB (b : Block) (l : List Block) : Nat :=
  (l.filter (fun x => decide (x = b))).length

/- Slot lists and personal assignment lists agree with multiplicity. -/
def sync_inv (st : SState) : Prop :=
  ∀ j : Nat, j < st.persons.length → ∀ b : Block,
    occS (getP st j).name (st.slots b) = occB b (getP st j).assigned_blocks

/-
From the final state to the returned Plan.
-/

/- The records of a returned plan (the rows without the Hours column). -/
def plan_records (plan : Plan) : List PlanRecord :=
  plan.rows.map Prod.fst

/- The names a plan lists for one slot, in row order. -/
def plan_slot_list (plan : Plan) (b : Block) : List String :=
  ((plan_records plan).filter
    (fun r => decide (r.day = b.1) && decide (r.time = b.2))).map PlanRecord.person

/- The time blocks a plan assigns to name `n` on day `d`. -/
def plan_times (plan : Plan) (n : String) (d : Day) : List Time :=
  ((plan_records plan).filter
    (fun r => decide (r.person = n) && decide (r.day = d))).map PlanRecord.time

/-
Concrete participant sets used to evaluate the engine on closed inputs.
-/

/- Available (level 3) only Monday 10-12, cap 2. -/
def pA : Person :=
  ⟨"A", fun b => if b = (Day.Montag, Time.t10_12) then 3 else 0, 2, []⟩

/- Same availability as `pA`, different name. -/
def pB : Person :=
  ⟨"B", fun b => if b = (Day.Montag, Time.t10_12) then 3 else 0, 2, []⟩

/- Available (level 1) only Monday 10-12, cap 4: enough spare capacity for
the backfill pass to add the same person to the same slot again. -/
def pDup : Person :=
  ⟨"A", fun b => if b = (Day.Montag, Time.t10_12) then 1 else 0, 4, []⟩

/- Available (level 4) for the first block of all five days, cap 4.  Level 4
matches no priority tier, so only the top-up pass assigns this person; its
candidate order is then directly observable because the cap admits only two
of the five candidate blocks. -/
def pTopup : Person :=
  ⟨"A", fun b => if b.2 = Time.t10_12 then 4 else 0, 4, []⟩

/- Available (level 1) for all four Monday blocks, cap 4. -/
def pW : Person :=
  ⟨"W", fun b => if b.1 = Day.Montag then 1 else 0, 4, []⟩

/- Backfill-ordering scenario: `q1` has done no work and has breadth 1;
`q2` already works one Tuesday block and has breadth 5.  Pass 1's key
(workload before breadth) puts `q1` first; pass 3's key (breadth before
workload) puts `q2` first. -/
def q1 : Person :=
  ⟨"A", fun b => if b = (Day.Montag, Time.t12_14) then 1 else 0, 10, []⟩

def q2 : Person :=
  ⟨"B", fun b =>
    if b = (Day.Montag, Time.t12_14) ∨ b = (Day.Dienstag, Time.t10_12) ∨
       b = (Day.Dienstag, Time.t12_14) ∨ b = (Day.Mittwoch, Time.t10_12) ∨
       b = (Day.Donnerstag, Time.t10_12) then 1 else 0,
    10, [(Day.Dienstag, Time.t10_12)]⟩

def stBackfill : SState := ⟨[q1, q2], fun _ => []⟩

def planA : Plan := ⟨[(⟨Day.Montag, Time.t10_12, "A"⟩, 2)]⟩

def planW : Plan :=
  ⟨[(⟨Day.Montag, Time.t10_12, "W"⟩, 4), (⟨Day.Montag, Time.t12_14, "W"⟩, 4)]⟩

def planDup : Plan :=
  ⟨[(⟨Day.Montag, Time.t10_12, "A"⟩, 4), (⟨Day.Montag, Time.t10_12, "A"⟩, 4)]⟩

def planTopup : Plan :=
  ⟨[(⟨Day.Dienstag, Time.t10_12, "A"⟩, 4), (⟨Day.Donnerstag, Time.t10_12, "A"⟩, 4)]⟩

/- Catalog (chronological) order on blocks: day position, then time position. -/
def catalog_le (a b : Block) : Prop :=
  a.1.idx < b.1.idx ∨ (a.1.idx = b.1.idx ∧ a.2.idx ≤ b.2.idx)

instance : ∀ a b : Block, Decidable (catalog_le a b) := fun a b =>
  inferInstanceAs (Decidable (a.1.idx < b.1.idx ∨ (a.1.idx = b.1.idx ∧ a.2.idx ≤ b.2.idx)))

/- The backfill ordering as the amended claim words it: candidates already
working the same day first, then descending breadth of availability, then
ascending current workload. -/
def spec_backfill_key (st : SState) (b : Block) (i : Nat) : Int × Int × Int :=
  let p := getP st i
  ((if p.assigned_blocks.any (fun x => x.1 = b.1) then 0 else 1),
    -(p.available_blocks_count : Int), (p.assigned_hours : Int))

set_option maxRecDepth 40000

/-
Basic facts about the catalog enumerations.
-/

theorem time_mem_times (t : Time) : t ∈ times := by
  cases t <;> simp [times]

theorem time_idx_lt (t : Time) : t.idx < 4 := by
  cases t <;> simp [Time.idx]

theorem times_getD_idx (t : Time) (d : Time) : times.getD t.idx d = t := by
  cases t <;> rfl

theorem time_idx_inj {t s : Time} (h : t.idx = s.idx) : t = s := by
  cases t <;> cases s <;> simp_all [Time.idx]

theorem block_mem_all_blocks (b : Block) : b ∈ all_blocks := by
  obtain ⟨d, t⟩ := b
  cases d <;> cases t <;> decide

theorem all_blocks_nodup : all_blocks.Nodup := by decide

theorem block_hours_eq_two (t : Time) : block_hours t = 2 := by
  cases t <;> rfl

/-
Small arithmetic facts about `List.min?` / `List.max?` on natural numbers,
mirroring Python's `min(...)` / `max(...)` over a nonempty sequence.
-/

theorem foldl_min_le_init (l : List Nat) (a : Nat) : l.foldl min a ≤ a := by
  induction l generalizing a with
  | nil => exact le_refl a
  | cons x xs ih => exact le_trans (ih (min a x)) (min_le_left a x)

theorem foldl_min_le_mem (l : List Nat) : ∀ (a x : Nat), x ∈ l → l.foldl min a ≤ x := by
  induction l with
  | nil => intro a x h; cases h
  | cons y ys ih =>
    intro a x h
    rcases List.mem_cons.mp h with rfl | hmem
    · exact le_trans (foldl_min_le_init ys (min a x)) (min_le_right a x)
    · exact ih (min a y) x hmem

theorem foldl_min_mem_or (l : List Nat) (a : Nat) :
    l.foldl min a = a ∨ l.foldl min a ∈ l := by
  induction l generalizing a with
  | nil => exact Or.inl rfl
  | cons y ys ih =>
    rcases ih (min a y) with h | h
    · rcases min_choice a y with hm | hm
      · exact Or.inl (by rw [List.foldl_cons, h, hm])
      · exact Or.inr (by rw [List.foldl_cons, h, hm]; exact List.mem_cons_self y ys)
    · exact Or.inr (List.mem_cons_of_mem y h)

theorem nat_min?_spec (l : List Nat) (hl : l ≠ []) :
    ∃ m, l.min? = some m ∧ m ∈ l ∧ ∀ x ∈ l, m ≤ x := by
  match l, hl with
  | x :: xs, _ =>
    refine ⟨xs.foldl min x, rfl, ?_, ?_⟩
    · rcases foldl_min_mem_or xs x with h | h
      · rw [h]; exact List.mem_cons_self x xs
      · exact List.mem_cons_of_mem x h
    · intro y hy
      rcases List.mem_cons.mp hy with rfl | hmem
      · exact foldl_min_le_init xs y
      · exact foldl_min_le_mem xs x y hmem

theorem foldl_max_init_le (l : List Nat) (a : Nat) : a ≤ l.foldl max a := by
  induction l generalizing a with
  | nil => exact le_refl a
  | cons x xs ih => exact le_trans (le_max_left a x) (ih (max a x))

theorem foldl_max_mem_le (l : List Nat) : ∀ (a x : Nat), x ∈ l → x ≤ l.foldl max a := by
  induction l with
  | nil => intro a x h; cases h
  | cons y ys ih =>
    intro a x h
    rcases List.mem_cons.mp h with rfl | hmem
    · exact le_trans (le_max_right a x) (foldl_max_init_le ys (max a x))
    · exact ih (max a y) x hmem

theorem foldl_max_mem_or (l : List Nat) (a : Nat) :
    l.foldl max a = a ∨ l.foldl max a ∈ l := by
  induction l generalizing a with
  | nil => exact Or.inl rfl
  | cons y ys ih =>
    rcases ih (max a y) with h | h
    · rcases max_choice a y with hm | hm
      · exact Or.inl (by rw [List.foldl_cons, h, hm])
      · exact Or.inr (by rw [List.foldl_cons, h, hm]; exact List.mem_cons_self y ys)
    · exact Or.inr (List.mem_cons_of_mem y h)

theorem nat_max?_spec (l : List Nat) (hl : l ≠ []) :
    ∃ m, l.max? = some m ∧ m ∈ l ∧ ∀ x ∈ l, x ≤ m := by
  match l, hl with
  | x :: xs, _ =>
    refine ⟨xs.foldl max x, rfl, ?_, ?_⟩
    · rcases foldl_max_mem_or xs x with h | h
      · rw [h]; exact List.mem_cons_self x xs
      · exact List.mem_cons_of_mem x h
    · intro y hy
      rcases List.mem_cons.mp hy with rfl | hmem
      · exact foldl_max_init_le xs y
      · exact foldl_max_mem_le xs x y hmem

/-
`stable_sort` permutes its input.
-/

theorem insert_stable_perm (lt : α → α → Bool) (x : α) (l : List α) :
    (insert_stable lt x l).Perm (x :: l) := by
  induction l with
  | nil => exact List.Perm.refl _
  | cons y ys ih =>
    simp only [insert_stable]
    split
    · exact List.Perm.refl _
    · exact ((ih.cons y).trans (List.Perm.swap x y ys))

theorem stable_sort_foldl_perm (lt : α → α → Bool) :
    ∀ (l acc : List α),
      (l.foldl (fun acc x => insert_stable lt x acc) acc).Perm (acc ++ l) := by
  intro l
  induction l with
  | nil => intro acc; simp
  | cons x xs ih =>
    intro acc
    exact (ih (insert_stable lt x acc)).trans
      (((insert_stable_perm lt x acc).append_right xs).trans List.perm_middle.symm)

theorem stable_sort_perm (lt : α → α → Bool) (l : List α) :
    (stable_sort lt l).Perm l := by
  have h := stable_sort_foldl_perm lt l []
  simpa [stable_sort] using h

theorem mem_stable_sort {lt : α → α → Bool} {l : List α} {x : α} :
    x ∈ stable_sort lt l ↔ x ∈ l :=
  (stable_sort_perm lt l).mem_iff

theorem stable_sort_nodup {lt : α → α → Bool} {l : List α} (h : l.Nodup) :
    (stable_sort lt l).Nodup :=
  ((stable_sort_perm lt l).nodup_iff).mpr h

/-
`list_modify` lemmas.
-/

theorem list_modify_length (f : α → α) : ∀ (i : Nat) (l : List α),
    (list_modify f i l).length = l.length := by
  intro i l
  induction l generalizing i with
  | nil => cases i <;> rfl
  | cons x xs ih =>
    cases i with
    | zero => rfl
    | succ n => simp [list_modify, ih n]

theorem list_modify_getD_ne (f : α → α) {i j : Nat} (h : j ≠ i) :
    ∀ (l : List α) (d : α), (list_modify f i l).getD j d = l.getD j d := by
  induction i generalizing j with
  | zero =>
    intro l d
    cases l with
    | nil => rfl
    | cons x xs =>
      cases j with
      | zero => exact absurd rfl h
      | succ m => simp [list_modify]
  | succ n ih =>
    intro l d
    cases l with
    | nil => rfl
    | cons x xs =>
      cases j with
      | zero => simp [list_modify]
      | succ m =>
        simp only [list_modify, List.getD_cons_succ]
        exact ih (fun hc => h (by rw [hc])) xs d

theorem list_modify_getD_self (f : α → α) :
    ∀ (i : Nat) (l : List α) (d : α), i < l.length →
      (list_modify f i l).getD i d = f (l.getD i d) := by
  intro i
  induction i with
  | zero =>
    intro l d h
    cases l with
    | nil => simp at h
    | cons x xs => rfl
  | succ n ih =>
    intro l d h
    cases l with
    | nil => simp at h
    | cons x xs =>
      simp only [list_modify, List.getD_cons_succ]
      exact ih xs d (by simpa using h)

theorem list_modify_of_ge (f : α → α) :
    ∀ (i : Nat) (l : List α), l.length ≤ i → list_modify f i l = l := by
  intro i
  induction i with
  | zero =>
    intro l h
    cases l with
    | nil => rfl
    | cons x xs => simp at h
  | succ n ih =>
    intro l h
    cases l with
    | nil => rfl
    | cons x xs => simp [list_modify, ih xs (by simpa using h)]

theorem list_modify_map {f : α → α} {g : α → β} (hfg : ∀ a, g (f a) = g a) :
    ∀ (i : Nat) (l : List α), (list_modify f i l).map g = l.map g := by
  intro i
  induction i with
  | zero =>
    intro l
    cases l with
    | nil => rfl
    | cons x xs => simp [list_modify, hfg]
  | succ n ih =>
    intro l
    cases l with
    | nil => rfl
    | cons x xs => simp [list_modify, ih]

theorem times_getD_idx_eq {i : Nat} (h : i < 4) (d : Time) :
    (times.getD i d).idx = i := by
  interval_cases i <;> rfl

theorem gap_iff (p : Person) (nb : Block) :
    would_create_gap_sequence p nb = true ↔ gap_spec_holds p nb := by
  simp only [would_create_gap_sequence, gap_spec_holds, day_avail_count, sim_list]
  split
  case isTrue hlt =>
    simp only [Bool.false_eq_true, false_iff, not_and]
    intro h3
    omega
  case isFalse hlt =>
    have h3 : 3 ≤ (times.filter (fun t => 1 ≤ p.availability (nb.1, t))).length := by omega
    rw [List.any_eq_true]
    have hT2 : nb.2 ∈ times.filter (fun t => decide (t ∈ assigned_on_day p nb.1 ++ [nb.2])) :=
      List.mem_filter.mpr ⟨time_mem_times _, by simp⟩
    have hTne : (times.filter
        (fun t => decide (t ∈ assigned_on_day p nb.1 ++ [nb.2]))).map Time.idx ≠ [] := by
      intro hc
      have := List.map_eq_nil_iff.mp hc
      rw [this] at hT2
      cases hT2
    obtain ⟨m, hm_eq, hm_mem, hm_le⟩ := nat_min?_spec _ hTne
    obtain ⟨M, hM_eq, hM_mem, hM_le⟩ := nat_max?_spec _ hTne
    obtain ⟨ta, hta_mem, hta_idx⟩ := List.mem_map.mp hm_mem
    obtain ⟨tb, htb_mem, htb_idx⟩ := List.mem_map.mp hM_mem
    have hmM : m ≤ M := hm_le M hM_mem
    have hM4 : M < 4 := htb_idx ▸ time_idx_lt tb
    rw [hm_eq, hM_eq]
    simp only [Option.getD_some]
    constructor
    · rintro ⟨i, hi_mem, hi_pred⟩
      rw [List.mem_range'_1] at hi_mem
      have hiM : i ≤ M := by omega
      have hi4 : i < 4 := by omega
      simp only [Bool.and_eq_true, Bool.not_eq_eq_eq_not, Bool.not_true,
        decide_eq_true_eq, decide_eq_false_iff_not] at hi_pred
      obtain ⟨hi_av, hi_nT⟩ := hi_pred
      set t := times.getD i Time.t10_12 with ht_def
      have ht_idx : t.idx = i := times_getD_idx_eq hi4 _
      have ht_times : t ∈ times := time_mem_times t
      have ht_av : 1 ≤ p.availability (nb.1, t) :=
        (decide_eq_true_eq.mp (List.mem_filter.mp hi_av).2)
      have ht_nA : t ∉ assigned_on_day p nb.1 ++ [nb.2] := by
        intro hc
        exact hi_nT (List.mem_filter.mpr ⟨ht_times, decide_eq_true hc⟩)
      refine ⟨h3, t, ht_av, ht_nA, ⟨ta, ?_, ?_⟩, ⟨tb, ?_, ?_⟩⟩
      · exact decide_eq_true_eq.mp (List.mem_filter.mp hta_mem).2
      · -- m < i since equality would force t ∈ test_blocks
        rw [hta_idx, ht_idx]
        rcases Nat.lt_or_ge m i with h | h
        · exact h
        · exfalso
          have : m = i := le_antisymm (by omega) (by omega)
          have : ta = t := time_idx_inj (by rw [hta_idx, ht_idx, this])
          exact hi_nT (this ▸ hta_mem)
      · exact decide_eq_true_eq.mp (List.mem_filter.mp htb_mem).2
      · rw [htb_idx, ht_idx]
        rcases Nat.lt_or_ge i M with h | h
        · exact h
        · exfalso
          have : M = i := le_antisymm (by omega) (by omega)
          have : tb = t := time_idx_inj (by rw [htb_idx, ht_idx, this])
          exact hi_nT (this ▸ htb_mem)
    · rintro ⟨-, t, ht_av, ht_nA, ⟨a, ha_A, ha_lt⟩, ⟨b, hb_A, hb_lt⟩⟩
      have ha_T : a ∈ times.filter (fun t => decide (t ∈ assigned_on_day p nb.1 ++ [nb.2])) :=
        List.mem_filter.mpr ⟨time_mem_times a, decide_eq_true ha_A⟩
      have hb_T : b ∈ times.filter (fun t => decide (t ∈ assigned_on_day p nb.1 ++ [nb.2])) :=
        List.mem_filter.mpr ⟨time_mem_times b, decide_eq_true hb_A⟩
      have hma : m ≤ a.idx := hm_le _ (List.mem_map.mpr ⟨a, ha_T, rfl⟩)
      have hbM : b.idx ≤ M := hM_le _ (List.mem_map.mpr ⟨b, hb_T, rfl⟩)
      refine ⟨t.idx, ?_, ?_⟩
      · rw [List.mem_range'_1]
        omega
      · have hgetD : times.getD t.idx Time.t10_12 = t := times_getD_idx t Time.t10_12
        simp only [hgetD, Bool.and_eq_true, Bool.not_eq_eq_eq_not, Bool.not_true,
          decide_eq_true_eq, decide_eq_false_iff_not]
        refine ⟨List.mem_filter.mpr ⟨time_mem_times t, decide_eq_true ht_av⟩, ?_⟩
        intro hc
        exact ht_nA (decide_eq_true_eq.mp (List.mem_filter.mp hc).2)

theorem same_core_refl (p : Person) : same_core p p := ⟨rfl, rfl, rfl⟩

theorem same_core_trans {p q r : Person} (h1 : same_core p q) (h2 : same_core q r) :
    same_core p r :=
  ⟨h1.1.trans h2.1, h1.2.1.trans h2.2.1, h1.2.2.trans h2.2.2⟩

theorem add_block_core (p : Person) (b : Block) : same_core (p.add_block b) p :=
  ⟨rfl, rfl, rfl⟩

theorem commit_persons_length (st : SState) (i : Nat) (b : Block) :
    (commit st i b).persons.length = st.persons.length :=
  list_modify_length _ _ _

theorem getP_commit_ne (st : SState) (i : Nat) (b : Block) {j : Nat} (h : j ≠ i) :
    getP (commit st i b) j = getP st j := by
  simp only [getP, commit]
  exact list_modify_getD_ne _ h _ _

theorem getP_commit_self (st : SState) (i : Nat) (b : Block) (h : i < st.persons.length) :
    getP (commit st i b) i = (getP st i).add_block b := by
  simp only [getP, commit]
  exact list_modify_getD_self _ _ _ _ h

theorem commit_persons_of_ge (st : SState) (i : Nat) (b : Block)
    (h : st.persons.length ≤ i) : (commit st i b).persons = st.persons :=
  list_modify_of_ge _ _ _ h

theorem commit_slots_self (st : SState) (i : Nat) (b : Block) :
    (commit st i b).slots b = st.slots b ++ [(getP st i).name] := by
  simp [commit]

theorem commit_slots_ne (st : SState) (i : Nat) (b : Block) {b' : Block} (h : b' ≠ b) :
    (commit st i b).slots b' = st.slots b' := by
  simp [commit, h]

theorem getP_commit_core (st : SState) (i : Nat) (b : Block) (j : Nat) :
    same_core (getP (commit st i b) j) (getP st j) := by
  rcases Decidable.em (j = i) with rfl | hne
  · rcases Nat.lt_or_ge j st.persons.length with hlt | hge
    · rw [getP_commit_self st j b hlt]; exact add_block_core _ _
    · simp only [getP, commit_persons_of_ge st j b hge]
      exact same_core_refl _
  · rw [getP_commit_ne st i b hne]; exact same_core_refl _

theorem commit_names (st : SState) (i : Nat) (b : Block) :
    (commit st i b).persons.map Person.name = st.persons.map Person.name :=
  @list_modify_map Person String (fun p => p.add_block b) Person.name (fun _ => rfl) i st.persons

theorem Reach.trans {a b c : SState} (hab : Reach a b) (hbc : Reach b c) : Reach a c := by
  induction hbc with
  | refl => exact hab
  | step i bl h hi hslot hgap hav hcap ih => exact Reach.step i bl ih hi hslot hgap hav hcap

theorem reach_length {st st' : SState} (h : Reach st st') :
    st'.persons.length = st.persons.length := by
  induction h with
  | refl => rfl
  | step i bl h hi hslot hgap hav hcap ih => rw [commit_persons_length]; exact ih

theorem reach_core {st st' : SState} (h : Reach st st') (j : Nat) :
    same_core (getP st' j) (getP st j) := by
  induction h with
  | refl => exact same_core_refl _
  | step i bl h hi hslot hgap hav hcap ih =>
    exact same_core_trans (getP_commit_core _ _ _ _) ih

theorem reach_names {st st' : SState} (h : Reach st st') :
    st'.persons.map Person.name = st.persons.map Person.name := by
  induction h with
  | refl => rfl
  | step i bl h hi hslot hgap hav hcap ih => rw [commit_names]; exact ih

theorem reach_head {st st' : SState} (h : Reach st st') (h0 : head_inv st) :
    head_inv st' := by
  induction h with
  | refl => exact h0
  | step i bl h hi hslot hgap hav hcap ih =>
    intro b'
    rcases Decidable.em (b' = bl) with rfl | hne
    · rw [commit_slots_self]
      simp only [List.length_append, List.length_singleton]
      omega
    · rw [commit_slots_ne _ _ _ hne]
      exact ih b'

theorem add_block_hours (p : Person) (b : Block) :
    (p.add_block b).assigned_hours = p.assigned_hours + 2 := by
  simp [Person.assigned_hours, Person.add_block, block_hours_eq_two]

theorem reach_cap {st st' : SState} (h : Reach st st') (h0 : cap_inv st) :
    cap_inv st' := by
  induction h with
  | refl => exact h0
  | step i bl h hi hslot hgap hav hcap ih =>
    intro j
    rcases Decidable.em (j = i) with rfl | hne
    · rw [getP_commit_self _ _ _ hi, add_block_hours]
      exact hcap
    · rw [getP_commit_ne _ _ _ hne]
      exact ih j

theorem assigned_on_day_add_block (p : Person) (nb : Block) (d : Day) :
    assigned_on_day (p.add_block nb) d =
      assigned_on_day p d ++ (if nb.1 = d then [nb.2] else []) := by
  simp only [assigned_on_day, Person.add_block, List.filter_append, List.map_append]
  congr 1
  rcases Decidable.em (nb.1 = d) with he | hne
  · simp [List.filter, he]
  · simp [List.filter, hne]

theorem good_of_assigned_nil {p : Person} (h : p.assigned_blocks = []) :
    good_person p := by
  intro d hcnt t ht hnA hcontra
  obtain ⟨⟨a, ha, -⟩, -⟩ := hcontra
  rw [assigned_on_day, h] at ha
  cases ha

theorem add_block_good {p : Person} {nb : Block}
    (hgap : would_create_gap_sequence p nb = false) (hp : good_person p) :
    good_person (p.add_block nb) := by
  intro d hcnt t ht hnA hcontra
  have hcnt' : 3 ≤ day_avail_count p d := hcnt
  rcases Decidable.em (nb.1 = d) with rfl | hne
  · -- the candidate's day: the simulated set of the check is the new list
    rw [assigned_on_day_add_block, if_pos rfl] at hnA hcontra
    have hspec : gap_spec_holds p nb :=
      ⟨hcnt', t, ht, hnA, hcontra.1, hcontra.2⟩
    rw [← gap_iff] at hspec
    rw [hspec] at hgap
    cases hgap
  · rw [assigned_on_day_add_block, if_neg hne, List.append_nil] at hnA hcontra
    exact hp d hcnt' t ht hnA hcontra

theorem reach_good {st st' : SState} (h : Reach st st') (h0 : good_inv st) :
    good_inv st' := by
  induction h with
  | refl => exact h0
  | step i bl h hi hslot hgap hav hcap ih =>
    intro j
    rcases Decidable.em (j = i) with rfl | hne
    · rw [getP_commit_self _ _ _ hi]
      exact add_block_good hgap (ih j)
    · rw [getP_commit_ne _ _ _ hne]
      exact ih j

theorem reach_elig {st st' : SState} (h : Reach st st') (h0 : elig_inv st) :
    elig_inv st' := by
  induction h with
  | refl => exact h0
  | step i bl h hi hslot hgap hav hcap ih =>
    rename_i stm
    intro b' n hn
    have transfer : ∀ j, j < stm.persons.length →
        (getP stm j).name = n → 0 < (getP stm j).availability b' →
        ∃ j', j' < (commit stm i bl).persons.length ∧
          (getP (commit stm i bl) j').name = n ∧
          0 < (getP (commit stm i bl) j').availability b' := by
      intro j hj hname hav'
      obtain ⟨he_name, he_av, -⟩ := getP_commit_core stm i bl j
      exact ⟨j, by rw [commit_persons_length]; exact hj,
        by rw [he_name]; exact hname, by rw [he_av]; exact hav'⟩
    rcases Decidable.em (b' = bl) with rfl | hne
    · rw [commit_slots_self] at hn
      rcases List.mem_append.mp hn with hold | hnew
      · obtain ⟨j, hj, hname, hav'⟩ := ih b' n hold
        exact transfer j hj hname hav'
      · have : n = (getP stm i).name := by simpa using hnew
        exact transfer i hi this.symm hav
    · rw [commit_slots_ne _ _ _ hne] at hn
      obtain ⟨j, hj, hname, hav'⟩ := ih b' n hn
      exact transfer j hj hname hav'

theorem occS_append_one (n : String) (l : List String) (m : String) :
    occS n (l ++ [m]) = occS n l + (if m = n then 1 else 0) := by
  simp only [occS, List.filter_append]
  rcases Decidable.em (m = n) with he | hne
  · simp [List.filter, he]
  · simp [List.filter, hne]

theorem occB_append_one (b : Block) (l : List Block) (x : Block) :
    occB b (l ++ [x]) = occB b l + (if x = b then 1 else 0) := by
  simp only [occB, List.filter_append]
  rcases Decidable.em (x = b) with he | hne
  · simp [List.filter, he]
  · simp [List.filter, hne]

theorem occS_pos_iff_mem (n : String) (l : List String) :
    0 < occS n l ↔ n ∈ l := by
  induction l with
  | nil => simp [occS]
  | cons x xs ih =>
    rcases Decidable.em (x = n) with rfl | hne
    · simp [occS, List.filter]
    · rw [List.mem_cons]
      constructor
      · intro h
        right
        rw [← ih]
        simpa [occS, List.filter, hne] using h
      · rintro (rfl | hmem)
        · exact absurd rfl hne
        · simpa [occS, List.filter, hne] using ih.mpr hmem

theorem names_ne_of_nodup (st : SState)
    (hnod : (st.persons.map Person.name).Nodup) {i j : Nat}
    (hi : i < st.persons.length) (hj : j < st.persons.length) (hne : i ≠ j) :
    (getP st i).name ≠ (getP st j).name := by
  intro hc
  have hinj := List.nodup_iff_injective_get.mp hnod
  have hgi : getP st i = st.persons.get ⟨i, hi⟩ := by
    simp only [getP, List.getD_eq_getElem?_getD, List.getElem?_eq_getElem hi,
      Option.getD_some, List.get_eq_getElem]
  have hgj : getP st j = st.persons.get ⟨j, hj⟩ := by
    simp only [getP, List.getD_eq_getElem?_getD, List.getElem?_eq_getElem hj,
      Option.getD_some, List.get_eq_getElem]
  rw [hgi, hgj] at hc
  have hi' : i < (st.persons.map Person.name).length := by simpa using hi
  have hj' : j < (st.persons.map Person.name).length := by simpa using hj
  have hmap : (st.persons.map Person.name).get ⟨i, hi'⟩ =
      (st.persons.map Person.name).get ⟨j, hj'⟩ := by
    simp only [List.get_eq_getElem, List.getElem_map]
    simpa [List.get_eq_getElem] using hc
  have := hinj hmap
  exact hne (by simpa using congrArg Fin.val this)

theorem add_block_assigned (p : Person) (b : Block) :
    (p.add_block b).assigned_blocks = p.assigned_blocks ++ [b] := rfl

theorem reach_sync {st st' : SState} (h : Reach st st')
    (hnod : (st.persons.map Person.name).Nodup) (h0 : sync_inv st) :
    sync_inv st' := by
  induction h with
  | refl => exact h0
  | step i bl h hi hslot hgap hav hcap ih =>
    rename_i stm
    have hnod' : (stm.persons.map Person.name).Nodup := by
      rw [reach_names h]; exact hnod
    intro j hj b
    rw [commit_persons_length] at hj
    rcases Decidable.em (j = i) with rfl | hne
    · rw [getP_commit_self _ _ _ hi, add_block_assigned]
      rcases Decidable.em (b = bl) with rfl | hbne
      · rw [commit_slots_self]
        have hname : ((getP stm j).add_block b).name = (getP stm j).name := rfl
        rw [hname, occS_append_one, occB_append_one, if_pos rfl, if_pos rfl, ih j hj b]
      · rw [commit_slots_ne _ _ _ (fun hc => hbne hc)]
        have hname : ((getP stm j).add_block bl).name = (getP stm j).name := rfl
        rw [hname, occB_append_one, if_neg (fun hc => hbne hc.symm), Nat.add_zero,
          ih j hj b]
    · rw [getP_commit_ne _ _ _ hne]
      have hnne : (getP stm j).name ≠ (getP stm i).name :=
        names_ne_of_nodup stm hnod' hj hi hne
      rcases Decidable.em (b = bl) with rfl | hbne
      · rw [commit_slots_self, occS_append_one, if_neg (fun hc => hnne hc.symm),
          Nat.add_zero, ih j hj b]
      · rw [commit_slots_ne _ _ _ (fun hc => hbne hc)]
        exact ih j hj b

/-
The three passes only move along `Reach`.
-/

theorem getP_of_ge (st : SState) (i : Nat) (h : st.persons.length ≤ i) :
    getP st i = default := by
  simp [getP, List.getD_eq_getElem?_getD, List.getElem?_eq_none h]

theorem default_available_count : (default : Person).available_blocks_count = 0 := by
  decide

theorem reach_assign_step (st : SState) (i : Nat) (b : Block)
    (hi : i < st.persons.length) (hav : 0 < (getP st i).availability b)
    (hcap : (getP st i).assigned_hours + 2 ≤ (getP st i).max_blocks) :
    Reach st (assign_step b (needed_for b) st i) := by
  unfold assign_step
  split
  case isTrue hslot =>
    split
    case isTrue hgap => exact Reach.refl st
    case isFalse hgap =>
      exact Reach.step i b (Reach.refl st) hi hslot (by simpa using hgap) hav hcap
  case isFalse hslot => exact Reach.refl st

theorem assign_step_getP_ne (b : Block) (n : Nat) (st : SState) (i : Nat) {j : Nat}
    (h : j ≠ i) : getP (assign_step b n st i) j = getP st j := by
  unfold assign_step
  split
  · split
    · rfl
    · exact getP_commit_ne st i b h
  · rfl

theorem assign_step_length (b : Block) (n : Nat) (st : SState) (i : Nat) :
    (assign_step b n st i).persons.length = st.persons.length := by
  unfold assign_step
  split
  · split
    · rfl
    · exact commit_persons_length st i b
  · rfl

theorem reach_foldl_assign (b : Block) :
    ∀ (idxs : List Nat) (st : SState), idxs.Nodup →
      (∀ i ∈ idxs, i < st.persons.length ∧ 0 < (getP st i).availability b ∧
        (getP st i).assigned_hours + 2 ≤ (getP st i).max_blocks) →
      Reach st (idxs.foldl (assign_step b (needed_for b)) st) := by
  intro idxs
  induction idxs with
  | nil => intro st _ _; exact Reach.refl st
  | cons i rest ih =>
    intro st hnod hyp
    obtain ⟨hi, hav, hcap⟩ := hyp i (List.mem_cons_self i rest)
    have h1 : Reach st (assign_step b (needed_for b) st i) :=
      reach_assign_step st i b hi hav hcap
    have hrest : ∀ j ∈ rest, getP (assign_step b (needed_for b) st i) j = getP st j := by
      intro j hj
      exact assign_step_getP_ne b _ st i (fun hc => (List.nodup_cons.mp hnod).1 (hc ▸ hj))
    have hlen : (assign_step b (needed_for b) st i).persons.length = st.persons.length :=
      assign_step_length b _ st i
    have ih' := ih (assign_step b (needed_for b) st i) (List.nodup_cons.mp hnod).2
      (fun j hj => by
        rw [hrest j hj, hlen]
        exact hyp j (List.mem_cons_of_mem i hj))
    simpa using h1.trans ih'

theorem reach_topup_step (st : SState) (i : Nat) (b : Block)
    (hi : i < st.persons.length) (hav : 0 < (getP st i).availability b) :
    Reach st (topup_step i st b) := by
  simp only [topup_step]
  split
  case isTrue hcond =>
    split
    case isTrue hgap => exact Reach.refl st
    case isFalse hgap =>
      exact Reach.step i b (Reach.refl st) hi hcond.1 (by simpa using hgap) hav hcond.2
  case isFalse hcond => exact Reach.refl st

theorem topup_step_core (i : Nat) (st : SState) (b : Block) (j : Nat) :
    same_core (getP (topup_step i st b) j) (getP st j) := by
  simp only [topup_step]
  split
  · split
    · exact same_core_refl _
    · exact getP_commit_core st i b j
  · exact same_core_refl _

theorem topup_step_length (i : Nat) (st : SState) (b : Block) :
    (topup_step i st b).persons.length = st.persons.length := by
  simp only [topup_step]
  split
  · split
    · rfl
    · exact commit_persons_length st i b
  · rfl

theorem reach_foldl_topup (i : Nat) :
    ∀ (bs : List Block) (st : SState), i < st.persons.length →
      (∀ b ∈ bs, 0 < (getP st i).availability b) →
      Reach st (bs.foldl (topup_step i) st) := by
  intro bs
  induction bs with
  | nil => intro st _ _; exact Reach.refl st
  | cons b rest ih =>
    intro st hi hyp
    have h1 : Reach st (topup_step i st b) :=
      reach_topup_step st i b hi (hyp b (List.mem_cons_self b rest))
    have hav_eq : (getP (topup_step i st b) i).availability = (getP st i).availability :=
      (topup_step_core i st b i).2.1
    have ih' := ih (topup_step i st b)
      (by rw [topup_step_length]; exact hi)
      (fun b' hb' => by rw [hav_eq]; exact hyp b' (List.mem_cons_of_mem b hb'))
    simpa using h1.trans ih'

theorem reach_foldl_of_step {β : Type} (f : SState → β → SState)
    (hf : ∀ st x, Reach st (f st x)) :
    ∀ (l : List β) (st : SState), Reach st (l.foldl f st) := by
  intro l
  induction l with
  | nil => intro st; exact Reach.refl st
  | cons x xs ih =>
    intro st
    simpa using (hf st x).trans (ih (f st x))

theorem reach_assign_blocks_at (level : Nat) (st : SState) (b : Block) :
    Reach st (assign_blocks_at level st b) := by
  simp only [assign_blocks_at]
  split
  case isTrue => exact Reach.refl st
  case isFalse hfull =>
    apply reach_foldl_assign
    · exact stable_sort_nodup ((List.nodup_range _).filter _)
    · intro i hi_mem
      have hi_el := mem_stable_sort.mp hi_mem
      obtain ⟨hi_rng, hpred⟩ := List.mem_filter.mp hi_el
      simp only [Bool.and_eq_true, decide_eq_true_eq, Person.can_receive_block] at hpred
      exact ⟨List.mem_range.mp hi_rng, hpred.2, hpred.1.2⟩

theorem reach_assign_blocks (level : Nat) (st : SState) :
    Reach st (assign_blocks level st) :=
  reach_foldl_of_step _ (reach_assign_blocks_at level) all_blocks st

theorem reach_pass1 (st : SState) : Reach st (pass1 st) :=
  ((reach_assign_blocks 3 st).trans (reach_assign_blocks 2 _)).trans
    (reach_assign_blocks 1 _)

theorem reach_topup_person (st : SState) (i : Nat) : Reach st (topup_person st i) := by
  simp only [topup_person]
  split
  case isTrue hcond =>
    rcases Nat.lt_or_ge i st.persons.length with hi | hge
    · apply reach_foldl_topup i _ _ hi
      intro b hb
      have hb_f := mem_stable_sort.mp (by simpa [topup_candidates] using hb)
      obtain ⟨-, hpred⟩ := List.mem_filter.mp hb_f
      simp only [Bool.and_eq_true, Person.can_receive_block, decide_eq_true_eq] at hpred
      exact hpred.1
    · exfalso
      rw [getP_of_ge st i hge, default_available_count] at hcond
      omega
  case isFalse => exact Reach.refl st

theorem reach_pass2 (st : SState) : Reach st (pass2 st) :=
  reach_foldl_of_step topup_person reach_topup_person _ st

theorem reach_backfill_at (st : SState) (b : Block) : Reach st (backfill_at st b) := by
  simp only [backfill_at]
  split
  case isTrue => exact Reach.refl st
  case isFalse hfull =>
    apply reach_foldl_assign
    · exact stable_sort_nodup ((List.nodup_range _).filter _)
    · intro i hi_mem
      have hi_el := mem_stable_sort.mp (by simpa [backfill_ordered, backfill_eligible]
        using hi_mem)
      obtain ⟨hi_rng, hpred⟩ := List.mem_filter.mp hi_el
      simp only [Bool.and_eq_true, decide_eq_true_eq, Person.can_receive_block] at hpred
      exact ⟨List.mem_range.mp hi_rng, hpred.1, hpred.2⟩

theorem reach_pass3 (st : SState) : Reach st (pass3 st) := by
  simp only [pass3]
  exact reach_foldl_of_step backfill_at reach_backfill_at _ st

theorem reach_run_engine (ps : List Person) :
    Reach (init_state ps) (run_engine ps) :=
  ((reach_pass1 (init_state ps)).trans (reach_pass2 _)).trans (reach_pass3 _)

theorem flatMap_congr {α β : Type} {u : List α} {f g : α → List β}
    (h : ∀ a ∈ u, f a = g a) : u.flatMap f = u.flatMap g := by
  induction u with
  | nil => rfl
  | cons x xs ih =>
    simp only [List.flatMap_cons]
    rw [h x (List.mem_cons_self x xs), ih (fun a ha => h a (List.mem_cons_of_mem x ha))]

theorem flatMap_if_not_mem {β : Type} (s : Block → List β) (b : Block) :
    ∀ (u : List Block), b ∉ u →
      (u.flatMap (fun b' => if b' = b then s b' else [])) = [] := by
  intro u
  induction u with
  | nil => intro _; rfl
  | cons x xs ih =>
    intro hb
    have hxb : x ≠ b := fun hc => hb (hc ▸ List.mem_cons_self x xs)
    simp only [List.flatMap_cons, if_neg hxb, List.nil_append]
    exact ih (fun hc => hb (List.mem_cons_of_mem x hc))

theorem flatMap_if_single {β : Type} (s : Block → List β) (b : Block) :
    ∀ (u : List Block), u.Nodup → b ∈ u →
      (u.flatMap (fun b' => if b' = b then s b' else [])) = s b := by
  intro u
  induction u with
  | nil => intro _ hb; cases hb
  | cons x xs ih =>
    intro hnod hb
    rcases List.mem_cons.mp hb with rfl | hmem
    · rw [List.flatMap_cons, if_pos rfl,
        flatMap_if_not_mem s b xs (List.nodup_cons.mp hnod).1, List.append_nil]
    · have hxb : x ≠ b := fun hc => (List.nodup_cons.mp hnod).1 (hc ▸ hmem)
      simp only [List.flatMap_cons, if_neg hxb, List.nil_append]
      exact ih (List.nodup_cons.mp hnod).2 hmem

theorem build_plan_data_filter_slot (st : SState) (b : Block) :
    (build_plan_data st).filter
      (fun r => decide (r.day = b.1) && decide (r.time = b.2)) =
    (st.slots b).map (fun n => ⟨b.1, b.2, n⟩) := by
  unfold build_plan_data
  rw [List.filter_flatMap]
  have hpt : ∀ b' : Block,
      ((st.slots b').map (fun n => (⟨b'.1, b'.2, n⟩ : PlanRecord))).filter
        (fun r => decide (r.day = b.1) && decide (r.time = b.2)) =
      (if b' = b then (st.slots b').map (fun n => ⟨b'.1, b'.2, n⟩) else []) := by
    intro b'
    rcases Decidable.em (b' = b) with rfl | hne
    · rw [if_pos rfl]
      apply List.filter_eq_self.mpr
      intro r hr
      obtain ⟨n, -, rfl⟩ := List.mem_map.mp hr
      simp
    · rw [if_neg hne]
      apply List.filter_eq_nil_iff.mpr
      intro r hr
      obtain ⟨n, -, rfl⟩ := List.mem_map.mp hr
      simp only [Bool.and_eq_true, decide_eq_true_eq]
      intro hc
      exact hne (Prod.ext hc.1 hc.2)
  rw [flatMap_congr (fun b' _ => hpt b')]
  exact flatMap_if_single _ b all_blocks all_blocks_nodup (block_mem_all_blocks b)

/-
Counting helpers for workload totals.
-/

theorem sum_map_const_two {β : Type} (l : List β) :
    (l.map (fun _ => (2 : Nat))).sum = 2 * l.length := by
  induction l with
  | nil => rfl
  | cons x xs ih =>
    simp only [List.map_cons, List.sum_cons, List.length_cons, ih]
    omega

theorem sum_map_two_mul {β : Type} (l : List β) (f : β → Time) :
    (l.map (fun x => block_hours (f x))).sum = 2 * l.length := by
  have h : (fun x => block_hours (f x)) = fun _ : β => (2 : Nat) :=
    funext (fun x => block_hours_eq_two (f x))
  rw [h, sum_map_const_two]

theorem assigned_hours_eq (p : Person) :
    p.assigned_hours = 2 * p.assigned_blocks.length :=
  sum_map_two_mul p.assigned_blocks Prod.snd

theorem hours_per_person_eq (pd : List PlanRecord) (n : String) :
    hours_per_person pd n = 2 * (pd.filter (fun r => decide (r.person = n))).length :=
  sum_map_two_mul _ PlanRecord.time

theorem sum_map_add_distrib {β : Type} (u : List β) (f g : β → Nat) :
    (u.map (fun x => f x + g x)).sum = (u.map f).sum + (u.map g).sum := by
  induction u with
  | nil => rfl
  | cons x xs ih =>
    simp only [List.map_cons, List.sum_cons, ih]
    omega

theorem sum_indicator_zero (x : Block) :
    ∀ (u : List Block), x ∉ u →
      (u.map (fun b => if x = b then 1 else 0)).sum = 0 := by
  intro u
  induction u with
  | nil => intro _; rfl
  | cons y ys ih =>
    intro hx
    have hxy : x ≠ y := fun hc => hx (hc ▸ List.mem_cons_self y ys)
    simp only [List.map_cons, List.sum_cons, if_neg hxy, Nat.zero_add]
    exact ih (fun hc => hx (List.mem_cons_of_mem y hc))

theorem sum_indicator_one (x : Block) :
    ∀ (u : List Block), u.Nodup → x ∈ u →
      (u.map (fun b => if x = b then 1 else 0)).sum = 1 := by
  intro u
  induction u with
  | nil => intro _ hx; cases hx
  | cons y ys ih =>
    intro hnod hx
    rcases List.mem_cons.mp hx with rfl | hmem
    · rw [List.map_cons, List.sum_cons, sum_indicator_zero x ys (List.nodup_cons.mp hnod).1]
      simp
    · have hxy : x ≠ y := fun hc => (List.nodup_cons.mp hnod).1 (hc ▸ hmem)
      simp only [List.map_cons, List.sum_cons, if_neg hxy, Nat.zero_add]
      exact ih (List.nodup_cons.mp hnod).2 hmem

theorem occB_cons (b x : Block) (l : List Block) :
    occB b (x :: l) = (if x = b then 1 else 0) + occB b l := by
  rcases Decidable.em (x = b) with he | hne
  · subst he
    simp [occB, List.filter, Nat.add_comm]
  · simp [occB, List.filter, hne]

theorem sum_occB (l : List Block) :
    (all_blocks.map (fun b => occB b l)).sum = l.length := by
  induction l with
  | nil =>
    have : ∀ b ∈ all_blocks, occB b ([] : List Block) = 0 := by
      intro b _; rfl
    rw [List.map_congr_left this]
    simp
  | cons x xs ih =>
    have hpt : ∀ b ∈ all_blocks,
        occB b (x :: xs) = (if x = b then 1 else 0) + occB b xs := by
      intro b _; exact occB_cons b x xs
    rw [List.map_congr_left hpt, sum_map_add_distrib,
      sum_indicator_one x all_blocks all_blocks_nodup (block_mem_all_blocks x), ih]
    simp only [List.length_cons]
    omega

theorem occB_pos_iff_mem (b : Block) (l : List Block) :
    0 < occB b l ↔ b ∈ l := by
  induction l with
  | nil => simp [occB]
  | cons x xs ih =>
    rcases Decidable.em (x = b) with rfl | hne
    · simp [occB, List.filter]
    · rw [List.mem_cons]
      constructor
      · intro h
        right
        rw [← ih]
        simpa [occB, List.filter, hne] using h
      · rintro (rfl | hmem)
        · exact absurd rfl hne
        · simpa [occB, List.filter, hne] using ih.mpr hmem

theorem build_plan_data_person_len (st : SState) (n : String) :
    ((build_plan_data st).filter (fun r => decide (r.person = n))).length
      = (all_blocks.map (fun b => occS n (st.slots b))).sum := by
  unfold build_plan_data
  rw [List.filter_flatMap, List.length_flatMap]
  congr 1
  apply List.map_congr_left
  intro b _
  simp only [Function.comp]
  rw [List.filter_map]
  simp only [List.length_map]
  rfl

theorem mem_assigned_on_day (p : Person) (d : Day) (t : Time) :
    t ∈ assigned_on_day p d ↔ (d, t) ∈ p.assigned_blocks := by
  unfold assigned_on_day
  rw [List.mem_map]
  constructor
  · rintro ⟨x, hx, rfl⟩
    obtain ⟨hmem, hd⟩ := List.mem_filter.mp hx
    have : x = (d, x.2) := Prod.ext (decide_eq_true_eq.mp hd) rfl
    exact this ▸ hmem
  · intro h
    exact ⟨(d, t), List.mem_filter.mpr ⟨h, by simp⟩, rfl⟩

/- Initial-state invariants for a reset participant list. -/

theorem getP_init_mem (ps : List Person) {i : Nat} (h : i < ps.length) :
    getP (init_state ps) i ∈ ps := by
  simp only [getP, init_state, List.getD_eq_getElem?_getD, List.getElem?_eq_getElem h,
    Option.getD_some]
  exact List.getElem_mem h

theorem init_head (ps : List Person) : head_inv (init_state ps) := by
  intro b
  simp [init_state]

theorem init_cap (ps : List Person) (hreset : ∀ p ∈ ps, p.assigned_blocks = []) :
    cap_inv (init_state ps) := by
  intro i
  rcases Nat.lt_or_ge i ps.length with hi | hge
  · have hmem := getP_init_mem ps hi
    have hz := hreset _ hmem
    rw [assigned_hours_eq, hz]
    simp
  · rw [getP_of_ge _ _ (by simpa [init_state] using hge)]
    exact Nat.le_refl 0

theorem init_good (ps : List Person) (hreset : ∀ p ∈ ps, p.assigned_blocks = []) :
    good_inv (init_state ps) := by
  intro i
  rcases Nat.lt_or_ge i ps.length with hi | hge
  · exact good_of_assigned_nil (hreset _ (getP_init_mem ps hi))
  · rw [getP_of_ge _ _ (by simpa [init_state] using hge)]
    exact good_of_assigned_nil rfl

theorem init_elig (ps : List Person) : elig_inv (init_state ps) := by
  intro b n hn
  cases hn

theorem init_sync (ps : List Person) (hreset : ∀ p ∈ ps, p.assigned_blocks = []) :
    sync_inv (init_state ps) := by
  intro j hj b
  have hz := hreset _ (getP_init_mem ps (by simpa [init_state] using hj))
  simp only [occS, occB]
  rw [hz]
  simp [init_state]

theorem sort_persons_perm (ps : List Person) : (sort_persons ps).Perm ps :=
  stable_sort_perm _ ps

theorem build_plan_ok {pd : List PlanRecord} {plan : Plan}
    (h : build_plan pd = Except.ok plan) : plan.rows.map Prod.fst = pd := by
  unfold build_plan at h
  split at h
  · cases h
  · cases h
    simp only [List.map_map]
    have hid : (Prod.fst ∘ fun r : PlanRecord => (r, hours_per_person pd r.person)) = id :=
      funext (fun r => rfl)
    rw [hid, List.map_id]

theorem generate_ok_rows {ps : List Person} {shuffle : List Person → List Person}
    {plan : Plan} (hok : generate_single_plan ps shuffle = Except.ok plan) :
    plan.rows.map Prod.fst = build_plan_data (run_engine (shuffle (sort_persons ps))) :=
  build_plan_ok hok

/-
The top-up pass never lists a person twice in one slot: its candidate list
excludes blocks whose slot already carries the person's name (line 190),
and each candidate block occurs only once.
-/

theorem nodup_append_singleton {α : Type} {l : List α} {x : α} (h : l.Nodup)
    (hx : x ∉ l) : (l ++ [x]).Nodup := by
  rw [List.nodup_append]
  exact ⟨h, List.nodup_singleton x, fun a ha hax => hx (by
    rw [List.mem_singleton] at hax
    exact hax ▸ ha)⟩

theorem topup_step_cases (i : Nat) (st : SState) (b : Block) :
    topup_step i st b = st ∨ topup_step i st b = commit st i b := by
  simp only [topup_step]
  split
  · split
    · exact Or.inl rfl
    · exact Or.inr rfl
  · exact Or.inl rfl

theorem topup_fold_nodup (i : Nat) (n₀ : String) :
    ∀ (bs : List Block) (st : SState), bs.Nodup →
      (getP st i).name = n₀ →
      (∀ b, (st.slots b).Nodup) →
      (∀ b ∈ bs, n₀ ∉ st.slots b) →
      ∀ b, ((bs.foldl (topup_step i) st).slots b).Nodup := by
  intro bs
  induction bs with
  | nil => intro st _ _ h _ b; exact h b
  | cons b rest ih =>
    intro st hnod hname h hexcl
    rcases topup_step_cases i st b with hcase | hcase
    · have := ih (topup_step i st b) (List.nodup_cons.mp hnod).2
        (by rw [hcase]; exact hname)
        (by rw [hcase]; exact h)
        (by rw [hcase]; exact fun b' hb' => hexcl b' (List.mem_cons_of_mem b hb'))
      simpa using this
    · have hslots : ∀ b', ((commit st i b).slots b').Nodup := by
        intro b'
        rcases Decidable.em (b' = b) with rfl | hne
        · rw [commit_slots_self]
          exact nodup_append_singleton (h b')
            (by rw [hname]; exact hexcl b' (List.mem_cons_self b' rest))
        · rw [commit_slots_ne _ _ _ hne]
          exact h b'
      have hexcl' : ∀ b' ∈ rest, n₀ ∉ (commit st i b).slots b' := by
        intro b' hb'
        have hne : b' ≠ b := fun hc => (List.nodup_cons.mp hnod).1 (hc ▸ hb')
        rw [commit_slots_ne _ _ _ hne]
        exact hexcl b' (List.mem_cons_of_mem b hb')
      have hgoal := ih (topup_step i st b) (List.nodup_cons.mp hnod).2
        (by rw [hcase, (getP_commit_core st i b i).1]; exact hname)
        (by rw [hcase]; exact hslots)
        (by rw [hcase]; exact hexcl')
      simpa using hgoal

theorem topup_person_nodup (st : SState) (i : Nat)
    (h : ∀ b, (st.slots b).Nodup) : ∀ b, ((topup_person st i).slots b).Nodup := by
  simp only [topup_person]
  split
  · apply topup_fold_nodup i (getP st i).name (topup_candidates st i) st
    · exact stable_sort_nodup (all_blocks_nodup.filter _)
    · rfl
    · exact h
    · intro b hb
      have hb_f := mem_stable_sort.mp (by simpa [topup_candidates] using hb)
      obtain ⟨-, hpred⟩ := List.mem_filter.mp hb_f
      simp only [Bool.and_eq_true, Bool.not_eq_eq_eq_not, Bool.not_true,
        decide_eq_false_iff_not] at hpred
      exact hpred.2
  · exact h

theorem foldl_preserve {β : Type} {P : SState → Prop} (f : SState → β → SState)
    (hf : ∀ st x, P st → P (f st x)) :
    ∀ (l : List β) (st : SState), P st → P (l.foldl f st) := by
  intro l
  induction l with
  | nil => intro st h; exact h
  | cons x xs ih =>
    intro st h
    simpa using ih (f st x) (hf st x h)

/-
The priority pass also keeps slot lists duplicate-free: a person can be
committed to a block only at the priority level equal to their preference
for it (`wants_block(block) == priority_level` in the eligibility filter at
line 154), each level sweep visits each block once, and each block's
eligible list holds each person once — so no person's assignment list ever
repeats a block during pass 1, and with distinct names the slots/assigned
synchronisation carries this to every slot's name list.
-/

theorem assign_step_cases (b : Block) (n : Nat) (st : SState) (i : Nat) :
    assign_step b n st i = st ∨ assign_step b n st i = commit st i b := by
  unfold assign_step
  split
  · split
    · exact Or.inl rfl
    · exact Or.inr rfl
  · exact Or.inl rfl

theorem reach_wants {st st' : SState} (h : Reach st st') (i : Nat) (b : Block) :
    (getP st' i).wants_block b = (getP st i).wants_block b := by
  simp only [Person.wants_block]
  rw [(reach_core h i).2.1]

theorem assign_fold_mem_after (b₀ : Block) (needed : Nat) :
    ∀ (idxs : List Nat) (st : SState) (i : Nat) (b : Block),
      b ∈ (getP (idxs.foldl (assign_step b₀ needed) st) i).assigned_blocks →
      b ∈ (getP st i).assigned_blocks ∨ (b = b₀ ∧ i ∈ idxs) := by
  intro idxs
  induction idxs with
  | nil => intro st i b h; exact Or.inl h
  | cons j rest ih =>
    intro st i b h
    have h1 := ih (assign_step b₀ needed st j) i b (by simpa using h)
    rcases h1 with h1 | ⟨rfl, hi⟩
    · rcases assign_step_cases b₀ needed st j with hc | hc
      · rw [hc] at h1
        exact Or.inl h1
      · rw [hc] at h1
        rcases Decidable.em (i = j) with rfl | hne
        · rcases Nat.lt_or_ge i st.persons.length with hlt | hge
          · rw [getP_commit_self st i b₀ hlt, add_block_assigned] at h1
            rcases List.mem_append.mp h1 with h2 | h2
            · exact Or.inl h2
            · have hb : b = b₀ := by simpa using h2
              exact Or.inr ⟨hb, List.mem_cons_self _ _⟩
          · simp only [getP, commit_persons_of_ge st i b₀ hge] at h1
            exact Or.inl h1
        · rw [getP_commit_ne st j b₀ hne] at h1
          exact Or.inl h1
    · exact Or.inr ⟨rfl, List.mem_cons_of_mem j hi⟩

theorem assign_fold_person_nodup (b₀ : Block) (needed : Nat) :
    ∀ (idxs : List Nat) (st : SState),
      idxs.Nodup →
      (∀ i ∈ idxs, b₀ ∉ (getP st i).assigned_blocks) →
      (∀ i, (getP st i).assigned_blocks.Nodup) →
      ∀ i, (getP (idxs.foldl (assign_step b₀ needed) st) i).assigned_blocks.Nodup := by
  intro idxs
  induction idxs with
  | nil => intro st _ _ h i; exact h i
  | cons j rest ih =>
    intro st hnod hexcl hpn
    have hstep : ∀ i, (getP (assign_step b₀ needed st j) i).assigned_blocks.Nodup := by
      intro i
      rcases assign_step_cases b₀ needed st j with hc | hc
      · rw [hc]; exact hpn i
      · rw [hc]
        rcases Decidable.em (i = j) with rfl | hne
        · rcases Nat.lt_or_ge i st.persons.length with hlt | hge
          · rw [getP_commit_self st i b₀ hlt, add_block_assigned]
            exact nodup_append_singleton (hpn i) (hexcl i (List.mem_cons_self i rest))
          · simp only [getP, commit_persons_of_ge st i b₀ hge]
            exact hpn i
        · rw [getP_commit_ne st j b₀ hne]
          exact hpn i
    have hexcl' : ∀ i ∈ rest, b₀ ∉ (getP (assign_step b₀ needed st j) i).assigned_blocks := by
      intro i hi
      have hne : i ≠ j := fun hc => (List.nodup_cons.mp hnod).1 (hc ▸ hi)
      rw [assign_step_getP_ne b₀ needed st j hne]
      exact hexcl i (List.mem_cons_of_mem j hi)
    have := ih (assign_step b₀ needed st j) (List.nodup_cons.mp hnod).2 hexcl' hstep
    simpa using this

theorem assign_blocks_at_person_nodup (lvl : Nat) (st : SState) (b₀ : Block)
    (hpn : ∀ i, (getP st i).assigned_blocks.Nodup)
    (hw : ∀ i, b₀ ∈ (getP st i).assigned_blocks → ¬ (getP st i).wants_block b₀ = lvl) :
    ∀ i, (getP (assign_blocks_at lvl st b₀) i).assigned_blocks.Nodup := by
  simp only [assign_blocks_at]
  split
  · exact hpn
  · apply assign_fold_person_nodup
    · exact stable_sort_nodup ((List.nodup_range _).filter _)
    · intro i hi
      have hi_el := mem_stable_sort.mp hi
      obtain ⟨-, hpred⟩ := List.mem_filter.mp hi_el
      simp only [Bool.and_eq_true, decide_eq_true_eq] at hpred
      intro hmem
      exact hw i hmem hpred.1.1
    · exact hpn

theorem assign_blocks_at_mem (lvl : Nat) (st : SState) (b₀ : Block) (i : Nat) (b : Block) :
    b ∈ (getP (assign_blocks_at lvl st b₀) i).assigned_blocks →
    b ∈ (getP st i).assigned_blocks ∨ (b = b₀ ∧ (getP st i).wants_block b₀ = lvl) := by
  simp only [assign_blocks_at]
  split
  · intro h; exact Or.inl h
  · intro h
    rcases assign_fold_mem_after b₀ (needed_for b₀) _ st i b h with h1 | ⟨hb, hi⟩
    · exact Or.inl h1
    · have hi_el := mem_stable_sort.mp hi
      obtain ⟨-, hpred⟩ := List.mem_filter.mp hi_el
      simp only [Bool.and_eq_true, decide_eq_true_eq] at hpred
      exact Or.inr ⟨hb, hpred.1.1⟩

theorem assign_blocks_fold_person_nodup (lvl : Nat) :
    ∀ (bs : List Block) (st : SState),
      bs.Nodup →
      (∀ i, (getP st i).assigned_blocks.Nodup) →
      (∀ i, ∀ b ∈ bs, b ∈ (getP st i).assigned_blocks → ¬ (getP st i).wants_block b = lvl) →
      ∀ i, (getP (bs.foldl (assign_blocks_at lvl) st) i).assigned_blocks.Nodup := by
  intro bs
  induction bs with
  | nil => intro st _ h _ i; exact h i
  | cons b₀ rest ih =>
    intro st hnod hpn hw
    have hpn₁ := assign_blocks_at_person_nodup lvl st b₀ hpn
      (fun i hm => hw i b₀ (List.mem_cons_self b₀ rest) hm)
    have hw₁ : ∀ i, ∀ b ∈ rest, b ∈ (getP (assign_blocks_at lvl st b₀) i).assigned_blocks →
        ¬ (getP (assign_blocks_at lvl st b₀) i).wants_block b = lvl := by
      intro i b hb hmem
      have hbne : b ≠ b₀ := fun hc => (List.nodup_cons.mp hnod).1 (hc ▸ hb)
      rcases assign_blocks_at_mem lvl st b₀ i b hmem with h1 | ⟨h2, -⟩
      · rw [reach_wants (reach_assign_blocks_at lvl st b₀) i b]
        exact hw i b (List.mem_cons_of_mem b₀ hb) h1
      · exact absurd h2 hbne
    have := ih (assign_blocks_at lvl st b₀) (List.nodup_cons.mp hnod).2 hpn₁ hw₁
    simpa using this

theorem assign_blocks_fold_mem (lvl : Nat) :
    ∀ (bs : List Block) (st : SState) (i : Nat) (b : Block),
      b ∈ (getP (bs.foldl (assign_blocks_at lvl) st) i).assigned_blocks →
      b ∈ (getP st i).assigned_blocks ∨ (getP st i).wants_block b = lvl := by
  intro bs
  induction bs with
  | nil => intro st i b h; exact Or.inl h
  | cons b₀ rest ih =>
    intro st i b h
    have h1 := ih (assign_blocks_at lvl st b₀) i b (by simpa using h)
    rcases h1 with h1 | h1
    · rcases assign_blocks_at_mem lvl st b₀ i b h1 with h2 | ⟨rfl, h3⟩
      · exact Or.inl h2
      · exact Or.inr h3
    · rw [reach_wants (reach_assign_blocks_at lvl st b₀) i b] at h1
      exact Or.inr h1

theorem pass1_person_nodup (ps : List Person)
    (hreset : ∀ p ∈ ps, p.assigned_blocks = []) :
    ∀ i, (getP (pass1 (init_state ps)) i).assigned_blocks.Nodup := by
  have h0 : ∀ i, (getP (init_state ps) i).assigned_blocks = [] := by
    intro i
    rcases Nat.lt_or_ge i ps.length with hi | hge
    · exact hreset _ (getP_init_mem ps hi)
    · rw [getP_of_ge _ _ (by simpa [init_state] using hge)]
      rfl
  have hpn0 : ∀ i, (getP (init_state ps) i).assigned_blocks.Nodup := by
    intro i; rw [h0 i]; exact List.nodup_nil
  have hpn3 : ∀ i, (getP (assign_blocks 3 (init_state ps)) i).assigned_blocks.Nodup := by
    apply assign_blocks_fold_person_nodup 3 all_blocks _ all_blocks_nodup hpn0
    intro i b _ hmem
    rw [h0 i] at hmem
    cases hmem
  have hmem3 : ∀ i b, b ∈ (getP (assign_blocks 3 (init_state ps)) i).assigned_blocks →
      (getP (init_state ps) i).wants_block b = 3 := by
    intro i b h
    rcases assign_blocks_fold_mem 3 all_blocks _ i b h with h1 | h1
    · rw [h0 i] at h1; cases h1
    · exact h1
  have hpn2 : ∀ i,
      (getP (assign_blocks 2 (assign_blocks 3 (init_state ps))) i).assigned_blocks.Nodup := by
    apply assign_blocks_fold_person_nodup 2 all_blocks _ all_blocks_nodup hpn3
    intro i b _ hmem
    rw [reach_wants (reach_assign_blocks 3 (init_state ps)) i b, hmem3 i b hmem]
    omega
  have hmem2 : ∀ i b,
      b ∈ (getP (assign_blocks 2 (assign_blocks 3 (init_state ps))) i).assigned_blocks →
      (getP (init_state ps) i).wants_block b = 3 ∨
        (getP (init_state ps) i).wants_block b = 2 := by
    intro i b h
    rcases assign_blocks_fold_mem 2 all_blocks _ i b h with h1 | h1
    · exact Or.inl (hmem3 i b h1)
    · rw [reach_wants (reach_assign_blocks 3 (init_state ps)) i b] at h1
      exact Or.inr h1
  apply assign_blocks_fold_person_nodup 1 all_blocks _ all_blocks_nodup hpn2
  intro i b _ hmem
  rw [reach_wants (reach_assign_blocks 2 (assign_blocks 3 (init_state ps))) i b,
    reach_wants (reach_assign_blocks 3 (init_state ps)) i b]
  rcases hmem2 i b hmem with h | h <;> rw [h] <;> omega

theorem occS_cons (n x : String) (l : List String) :
    occS n (x :: l) = (if x = n then 1 else 0) + occS n l := by
  rcases Decidable.em (x = n) with he | hne
  · subst he
    simp [occS, List.filter, Nat.add_comm]
  · simp [occS, List.filter, hne]

theorem nodup_of_occS_le_one : ∀ {l : List String}, (∀ n, occS n l ≤ 1) → l.Nodup := by
  intro l
  induction l with
  | nil => intro _; exact List.nodup_nil
  | cons x xs ih =>
    intro h
    rw [List.nodup_cons]
    constructor
    · intro hmem
      have h1 := h x
      rw [occS_cons, if_pos rfl] at h1
      have h2 : 0 < occS x xs := (occS_pos_iff_mem x xs).mpr hmem
      omega
    · apply ih
      intro n
      have h1 := h n
      rw [occS_cons] at h1
      omega

theorem occB_le_one_of_nodup : ∀ {l : List Block}, l.Nodup → ∀ b, occB b l ≤ 1 := by
  intro l
  induction l with
  | nil => intro _ b; simp [occB]
  | cons x xs ih =>
    intro h b
    rw [occB_cons]
    rcases Decidable.em (x = b) with rfl | hne
    · rw [if_pos rfl]
      have hnotin : x ∉ xs := (List.nodup_cons.mp h).1
      have hz : ¬ 0 < occB x xs := fun hc => hnotin ((occB_pos_iff_mem x xs).mp hc)
      have := ih (List.nodup_cons.mp h).2 x
      omega
    · rw [if_neg hne]
      have := ih (List.nodup_cons.mp h).2 b
      omega

theorem slots_nodup_of_person_nodup (ps : List Person) {st' : SState}
    (hreach : Reach (init_state ps) st')
    (hreset : ∀ p ∈ ps, p.assigned_blocks = [])
    (hnames : (ps.map Person.name).Nodup)
    (hpn : ∀ i, (getP st' i).assigned_blocks.Nodup) :
    ∀ b, (st'.slots b).Nodup := by
  intro b
  apply nodup_of_occS_le_one
  intro n
  rcases Decidable.em (n ∈ st'.slots b) with hmem | hmem
  · obtain ⟨j, hj, hname, -⟩ := reach_elig hreach (init_elig ps) b n hmem
    have hsync := reach_sync hreach hnames (init_sync ps hreset) j hj b
    rw [← hname, hsync]
    exact occB_le_one_of_nodup (hpn j) b
  · have hz : ¬ 0 < occS n (st'.slots b) :=
      fun hc => hmem ((occS_pos_iff_mem _ _).mp hc)
    omega

/-
The claims.
-/

/-- C1, counterexample: with `seed = None` the code still shuffles
(`random.shuffle` at line 134 runs unconditionally, driven by the ambient
global RNG state), so the Plan depends on the permutation that shuffle
applies.  Identity and reversal are both permutations the RNG can produce
on the sorted pool, and on two equally-available participants they yield
Plans whose records differ in order, refuting "two calls with seed = None
return identical Plans". -/
theorem claim_c1_counterexample :
    generate_single_plan [pA, pB] id ≠ generate_single_plan [pA, pB] List.reverse ∧
    (List.reverse (sort_persons [pA, pB])).Perm [pA, pB] :=
  ⟨by decide, (List.reverse_perm _).trans (sort_persons_perm _)⟩

/-- C1, amended: single-plan generation is deterministic as a function of
the shuffled participant order — two generation calls from reset
participants whose shuffles produce the same permutation of the sorted pool
return identical Plans.  (With `seed = None` the shuffle still runs against
the process-wide RNG state, so equality of the two shuffle outcomes is not
guaranteed.) -/
theorem claim_c1 (persons : List Person) (s1 s2 : List Person → List Person)
    (h : s1 (sort_persons persons) = s2 (sort_persons persons)) :
    generate_single_plan persons s1 = generate_single_plan persons s2 := by
  unfold generate_single_plan
  rw [h]

/-- C1, witness for the amended theorem at a concrete input. -/
theorem claim_c1_witness :
    generate_single_plan [pA, pB] id = generate_single_plan [pA, pB] id :=
  claim_c1 [pA, pB] id id rfl

/-- C2: the top-up pass sorts its candidate blocks by
`(day string, time index)` (line 193), so the days come out in German
alphabetical order (Dienstag, Donnerstag, Freitag, Mittwoch, Montag), not
in catalog order Montag → Freitag.  For `pTopup` (breadth 5, workload 0,
cap 4) the candidate list starts with Dienstag, the order is not
catalog-sorted, and the returned Plan assigns Dienstag and Donnerstag —
where the documented Monday-first order would assign Montag and Dienstag. -/
theorem claim_c2 :
    topup_candidates (pass1 (init_state [pTopup])) 0 =
      [(Day.Dienstag, Time.t10_12), (Day.Donnerstag, Time.t10_12),
       (Day.Freitag, Time.t10_12), (Day.Mittwoch, Time.t10_12),
       (Day.Montag, Time.t10_12)] ∧
    ¬ List.Pairwise catalog_le (topup_candidates (pass1 (init_state [pTopup])) 0) ∧
    generate_single_plan [pTopup] id = Except.ok planTopup :=
  ⟨by decide, by decide, by decide⟩

/-- C3, counterexample: the backfill pass orders eligible candidates by the
key `(day continuity, -breadth, workload)` (lines 218-225), which differs
from pass 1's `(day continuity, workload, -breadth)` (lines 161-168): at
`stBackfill` and slot Montag 12-14 the two keys produce different orders. -/
theorem claim_c3_counterexample :
    backfill_ordered stBackfill (Day.Montag, Time.t12_14) ≠
      stable_sort (fun i j =>
          tuple3Lt (pass1_key stBackfill (Day.Montag, Time.t12_14) i)
            (pass1_key stBackfill (Day.Montag, Time.t12_14) j))
        (backfill_eligible stBackfill (Day.Montag, Time.t12_14)) := by
  decide

/-- C3, amended: the backfill pass orders eligible candidates by day
continuity first, then descending breadth of availability, then ascending
current workload — the second and third criteria are swapped relative to
pass 1. -/
theorem claim_c3 (st : SState) (b : Block) :
    backfill_ordered st b =
      stable_sort (fun i j =>
          tuple3Lt (spec_backfill_key st b i) (spec_backfill_key st b j))
        (backfill_eligible st b) := rfl

/-- C4: on infeasible input the generation call does not return an
all-understaffed Plan; `plan_data` is empty, `pd.DataFrame(plan_data)` has
no columns, and `df["Person"]` raises `KeyError` — the call fails.  Here
evaluated at zero participants. -/
theorem claim_c4 :
    generate_single_plan [] id = Except.error "KeyError: Person" := by decide

/-- C6: the gap predicate returns True exactly when at least 3 blocks of
the candidate's day are available to the person and some available block
outside the simulated assigned-set (current same-day assignments plus the
candidate) lies strictly between an earlier and a later member of that
set; in particular it returns False whenever fewer than 3 blocks of the
day are available. -/
theorem claim_c6 (p : Person) (nb : Block) :
    would_create_gap_sequence p nb = true ↔ gap_spec_holds p nb :=
  gap_iff p nb

/-- C10, counterexample: the backfill pass does not exclude persons already
listed in the slot (lines 214-217 filter only on availability and
capacity), so a person with spare capacity is appended to the same slot a
second time: for `pDup` the returned Plan lists "A" twice for Monday
10-12. -/
theorem claim_c10_counterexample :
    generate_single_plan [pDup] id = Except.ok planDup ∧
    ¬ (plan_slot_list planDup (Day.Montag, Time.t10_12)).Nodup :=
  ⟨by decide, by decide⟩

/-- C10, amended: through the priority pass and the top-up pass every
slot's assignment list stays duplicate-free (for a generation started from
reset assignment lists with distinct participant names): in pass 1 a
person is committed to a block only at the level equal to their preference
for it, and the top-up pass explicitly excludes blocks already listing the
person.  Only the backfill pass, which does not exclude already-listed
persons, can list the same participant twice in one slot of the returned
Plan. -/
theorem claim_c10 (persons : List Person)
    (hreset : ∀ p ∈ persons, p.assigned_blocks = [])
    (hnames : (persons.map Person.name).Nodup) :
    ∀ b : Block, ((pass2 (pass1 (init_state persons))).slots b).Nodup := by
  have hpn := pass1_person_nodup persons hreset
  have hslots : ∀ b, ((pass1 (init_state persons)).slots b).Nodup :=
    slots_nodup_of_person_nodup persons (reach_pass1 _) hreset hnames hpn
  have h2 : ∀ b, ((pass2 (pass1 (init_state persons))).slots b).Nodup := by
    simp only [pass2]
    exact foldl_preserve topup_person
      (fun st' i h' => topup_person_nodup st' i h') _ _ hslots
  exact h2

/-- C10, witness for the amended theorem: after passes 1 and 2 on the
participant that the backfill pass later duplicates, the Monday 10-12 slot
list is still duplicate-free. -/
theorem claim_c10_witness :
    ((pass2 (pass1 (init_state [pDup]))).slots (Day.Montag, Time.t10_12)).Nodup :=
  claim_c10 [pDup] (by intro p hp; rw [List.mem_singleton.mp hp]; rfl) (by decide)
    (Day.Montag, Time.t10_12)

/-
Bridges from the engine's final state to the returned Plan.
-/

theorem plan_slot_list_eq {ps : List Person} {shuffle : List Person → List Person}
    {plan : Plan} (hok : generate_single_plan ps shuffle = Except.ok plan) (b : Block) :
    plan_slot_list plan b = (run_engine (shuffle (sort_persons ps))).slots b := by
  unfold plan_slot_list plan_records
  rw [generate_ok_rows hok, build_plan_data_filter_slot, List.map_map]
  have hid : (PlanRecord.person ∘ fun n => (⟨b.1, b.2, n⟩ : PlanRecord)) = id :=
    funext (fun n => rfl)
  rw [hid, List.map_id]

theorem plan_hours_eq {ps : List Person} {shuffle : List Person → List Person}
    {plan : Plan} (hok : generate_single_plan ps shuffle = Except.ok plan) (n : String) :
    hours_per_person (plan_records plan) n =
      2 * (all_blocks.map
        (fun b => occS n ((run_engine (shuffle (sort_persons ps))).slots b))).sum := by
  unfold plan_records
  rw [generate_ok_rows hok, hours_per_person_eq, build_plan_data_person_len]

theorem exists_index_of_mem {ps : List Person} {shuffle : List Person → List Person}
    (hperm : (shuffle (sort_persons ps)).Perm ps) {p : Person} (hp : p ∈ ps) :
    ∃ i, i < (shuffle (sort_persons ps)).length ∧
      getP (init_state (shuffle (sort_persons ps))) i = p := by
  have hmem : p ∈ shuffle (sort_persons ps) := hperm.mem_iff.mpr hp
  obtain ⟨⟨i, hi⟩, hget⟩ := List.mem_iff_get.mp hmem
  refine ⟨i, hi, ?_⟩
  simp only [getP, init_state, List.getD_eq_getElem?_getD, List.getElem?_eq_getElem hi,
    Option.getD_some]
  simpa [List.get_eq_getElem] using hget

theorem engine_hours_bound (qs : List Person)
    (hreset : ∀ q ∈ qs, q.assigned_blocks = [])
    (hnod : (qs.map Person.name).Nodup)
    (i : Nat) (hi : i < qs.length) :
    2 * ((all_blocks.map
        (fun b => occS (getP (init_state qs) i).name ((run_engine qs).slots b))).sum)
      ≤ (getP (init_state qs) i).max_blocks := by
  have hreach := reach_run_engine qs
  have hi_fin : i < (run_engine qs).persons.length := by
    rw [reach_length hreach]; exact hi
  have hcore := reach_core hreach i
  have hsync := reach_sync hreach hnod (init_sync qs hreset)
  have hcap := reach_cap hreach (init_cap qs hreset) i
  have hocc : ∀ b ∈ all_blocks,
      occS (getP (init_state qs) i).name ((run_engine qs).slots b)
        = occB b (getP (run_engine qs) i).assigned_blocks := by
    intro b _
    rw [← hcore.1]
    exact hsync i hi_fin b
  rw [List.map_congr_left hocc, sum_occB, ← assigned_hours_eq]
  calc (getP (run_engine qs) i).assigned_hours
      ≤ (getP (run_engine qs) i).max_blocks := hcap
    _ = (getP (init_state qs) i).max_blocks := hcore.2.2

theorem engine_record_elig (qs : List Person) {r : PlanRecord}
    (hr : r ∈ build_plan_data (run_engine qs)) :
    ∃ q ∈ qs, q.name = r.person ∧ 0 < q.availability (r.day, r.time) := by
  unfold build_plan_data at hr
  obtain ⟨b', hb', hr'⟩ := List.mem_flatMap.mp hr
  obtain ⟨n, hn, rfl⟩ := List.mem_map.mp hr'
  have hreach := reach_run_engine qs
  obtain ⟨j, hj, hname, hav⟩ := reach_elig hreach (init_elig qs) b' n hn
  have hj_qs : j < qs.length := by
    have hlen := reach_length hreach
    simp only [init_state] at hlen
    omega
  have hcore := reach_core hreach j
  have hname' : (getP (init_state qs) j).name = n := by rw [← hcore.1]; exact hname
  have hav' : 0 < (getP (init_state qs) j).availability b' := by
    rw [← hcore.2.1]; exact hav
  exact ⟨getP (init_state qs) j, getP_init_mem qs hj_qs, hname', hav'⟩

theorem engine_mem_slot_iff (qs : List Person)
    (hreset : ∀ q ∈ qs, q.assigned_blocks = [])
    (hnod : (qs.map Person.name).Nodup)
    (i : Nat) (hi : i < qs.length) (b : Block) :
    (getP (init_state qs) i).name ∈ (run_engine qs).slots b ↔
      b ∈ (getP (run_engine qs) i).assigned_blocks := by
  have hreach := reach_run_engine qs
  have hi_fin : i < (run_engine qs).persons.length := by
    rw [reach_length hreach]; exact hi
  have hsync := reach_sync hreach hnod (init_sync qs hreset) i hi_fin b
  have hcore := reach_core hreach i
  rw [← occS_pos_iff_mem, ← occB_pos_iff_mem, ← hcore.1, hsync]

theorem plan_times_mem_iff {ps : List Person} {shuffle : List Person → List Person}
    {plan : Plan} (hok : generate_single_plan ps shuffle = Except.ok plan)
    (n : String) (d : Day) (t' : Time) :
    t' ∈ plan_times plan n d ↔
      n ∈ (run_engine (shuffle (sort_persons ps))).slots (d, t') := by
  unfold plan_times plan_records
  rw [generate_ok_rows hok]
  constructor
  · intro h
    obtain ⟨r, hr_f, hr_t⟩ := List.mem_map.mp h
    obtain ⟨hr_pd, hr_pred⟩ := List.mem_filter.mp hr_f
    simp only [Bool.and_eq_true, decide_eq_true_eq] at hr_pred
    obtain ⟨b', hb', hr'⟩ := List.mem_flatMap.mp hr_pd
    obtain ⟨m, hm, rfl⟩ := List.mem_map.mp hr'
    have hb_eq : b' = (d, t') := Prod.ext hr_pred.2 hr_t
    rw [← hb_eq, ← hr_pred.1]
    exact hm
  · intro h
    apply List.mem_map.mpr
    refine ⟨⟨d, t', n⟩, ?_, rfl⟩
    apply List.mem_filter.mpr
    refine ⟨?_, by simp⟩
    apply List.mem_flatMap.mpr
    exact ⟨(d, t'), block_mem_all_blocks _, List.mem_map.mpr ⟨n, h, rfl⟩⟩

/-- C8: in every returned Plan, no slot lists more names than its required
headcount: 2 when the slot's time block is the day's first ('10-12'), 3
otherwise (`needed_for`). -/
theorem claim_c8 (persons : List Person) (shuffle : List Person → List Person)
    (plan : Plan) (hok : generate_single_plan persons shuffle = Except.ok plan)
    (b : Block) :
    (plan_slot_list plan b).length ≤ needed_for b := by
  rw [plan_slot_list_eq hok b]
  exact reach_head (reach_run_engine _) (init_head _) b

/-- C8, witness at a concrete generation. -/
theorem claim_c8_witness :
    (plan_slot_list planA (Day.Montag, Time.t10_12)).length ≤
      needed_for (Day.Montag, Time.t10_12) :=
  claim_c8 [pA] id planA (by decide) (Day.Montag, Time.t10_12)

/-- C7: for every participant of a generation started from reset
assignment lists, the Hours total the returned Plan derives for them
(2 units per listed record) stays within their workload cap; every pass
checks `assigned_hours() + 2 <= max_blocks` before committing. -/
theorem claim_c7 (persons : List Person) (shuffle : List Person → List Person)
    (plan : Plan)
    (hreset : ∀ p ∈ persons, p.assigned_blocks = [])
    (hnames : (persons.map Person.name).Nodup)
    (hperm : (shuffle (sort_persons persons)).Perm persons)
    (hok : generate_single_plan persons shuffle = Except.ok plan)
    (p : Person) (hp : p ∈ persons) :
    hours_per_person (plan_records plan) p.name ≤ p.max_blocks := by
  have hreset_qs : ∀ q ∈ shuffle (sort_persons persons), q.assigned_blocks = [] :=
    fun q hq => hreset q (hperm.mem_iff.mp hq)
  have hnod_qs : ((shuffle (sort_persons persons)).map Person.name).Nodup :=
    ((hperm.map Person.name).nodup_iff).mpr hnames
  obtain ⟨i, hi, hinit⟩ := exists_index_of_mem hperm hp
  have h := engine_hours_bound (shuffle (sort_persons persons)) hreset_qs hnod_qs i hi
  rw [hinit] at h
  rw [plan_hours_eq hok p.name]
  exact h

/-- C7, witness at a concrete generation. -/
theorem claim_c7_witness :
    hours_per_person (plan_records planA) pA.name ≤ pA.max_blocks :=
  claim_c7 [pA] id planA (by intro p hp; rw [List.mem_singleton.mp hp]; rfl) (by decide)
    (sort_persons_perm [pA]) (by decide) pA (List.mem_singleton.mpr rfl)

/-- C9: every record of a returned Plan names a participant whose
availability for that record's slot is strictly positive: each pass filters
candidates through `can_receive_block` before committing. -/
theorem claim_c9 (persons : List Person) (shuffle : List Person → List Person)
    (plan : Plan)
    (hperm : (shuffle (sort_persons persons)).Perm persons)
    (hok : generate_single_plan persons shuffle = Except.ok plan)
    (row : PlanRecord × Nat) (hrow : row ∈ plan.rows) :
    ∃ p ∈ persons, p.name = row.1.person ∧
      0 < p.availability (row.1.day, row.1.time) := by
  have hr : row.1 ∈ plan.rows.map Prod.fst := List.mem_map_of_mem Prod.fst hrow
  rw [generate_ok_rows hok] at hr
  obtain ⟨q, hq, hname, hav⟩ := engine_record_elig _ hr
  exact ⟨q, hperm.mem_iff.mp hq, hname, hav⟩

/-- C9, witness at a concrete generation. -/
theorem claim_c9_witness :
    ∃ p ∈ [pA], p.name = "A" ∧ 0 < p.availability (Day.Montag, Time.t10_12) :=
  claim_c9 [pA] id planA (sort_persons_perm [pA]) (by decide)
    (⟨Day.Montag, Time.t10_12, "A"⟩, 2) (List.mem_singleton.mpr rfl)

/-- C5: in every returned Plan generated from reset participants with
distinct names, each participant's assigned time blocks on a day with at
least 3 available blocks are contiguous over their available blocks: no
available block of theirs lies strictly between an earlier and a later
assigned block of the same day while being unassigned. -/
theorem claim_c5 (persons : List Person) (shuffle : List Person → List Person)
    (plan : Plan)
    (hreset : ∀ p ∈ persons, p.assigned_blocks = [])
    (hnames : (persons.map Person.name).Nodup)
    (hperm : (shuffle (sort_persons persons)).Perm persons)
    (hok : generate_single_plan persons shuffle = Except.ok plan)
    (p : Person) (hp : p ∈ persons) (d : Day)
    (hcnt : 3 ≤ day_avail_count p d)
    (t : Time) (hav : 1 ≤ p.availability (d, t))
    (hnot : t ∉ plan_times plan p.name d) :
    ¬ ((∃ a ∈ plan_times plan p.name d, a.idx < t.idx) ∧
       (∃ b ∈ plan_times plan p.name d, t.idx < b.idx)) := by
  have hreset_qs : ∀ q ∈ shuffle (sort_persons persons), q.assigned_blocks = [] :=
    fun q hq => hreset q (hperm.mem_iff.mp hq)
  have hnod_qs : ((shuffle (sort_persons persons)).map Person.name).Nodup :=
    ((hperm.map Person.name).nodup_iff).mpr hnames
  obtain ⟨i, hi, hinit⟩ := exists_index_of_mem hperm hp
  have hmem_iff : ∀ t' : Time, t' ∈ plan_times plan p.name d ↔
      t' ∈ assigned_on_day (getP (run_engine (shuffle (sort_persons persons))) i) d := by
    intro t'
    rw [plan_times_mem_iff hok p.name d t', mem_assigned_on_day, ← hinit]
    exact engine_mem_slot_iff _ hreset_qs hnod_qs i hi (d, t')
  have hgood : good_person (getP (run_engine (shuffle (sort_persons persons))) i) :=
    reach_good (reach_run_engine _) (init_good _ hreset_qs) i
  have hav_eq : (getP (run_engine (shuffle (sort_persons persons))) i).availability
      = p.availability := by
    have hcore := reach_core (reach_run_engine (shuffle (sort_persons persons))) i
    rw [hinit] at hcore
    exact hcore.2.1
  have hcnt' : 3 ≤ day_avail_count
      (getP (run_engine (shuffle (sort_persons persons))) i) d := by
    unfold day_avail_count
    rw [hav_eq]
    exact hcnt
  have hav' : 1 ≤ (getP (run_engine (shuffle (sort_persons persons))) i).availability
      (d, t) := by rw [hav_eq]; exact hav
  have hnot' : t ∉ assigned_on_day
      (getP (run_engine (shuffle (sort_persons persons))) i) d :=
    fun hc => hnot ((hmem_iff t).mpr hc)
  rintro ⟨⟨a, haP, halt⟩, ⟨b2, hbP, hblt⟩⟩
  exact hgood d hcnt' t hav' hnot'
    ⟨⟨a, (hmem_iff a).mp haP, halt⟩, ⟨b2, (hmem_iff b2).mp hbP, hblt⟩⟩

/-- C5, witness at a concrete generation: participant `pW` is available all
Monday, is assigned 10-12 and 12-14, and 14-16 is available, unassigned,
and indeed not strictly between two assigned blocks. -/
theorem claim_c5_witness :
    ¬ ((∃ a ∈ plan_times planW "W" Day.Montag, a.idx < Time.t14_16.idx) ∧
       (∃ b ∈ plan_times planW "W" Day.Montag, Time.t14_16.idx < b.idx)) :=
  claim_c5 [pW] id planW (by intro p hp; rw [List.mem_singleton.mp hp]; rfl) (by decide)
    (sort_persons_perm [pW]) (by decide) pW (List.mem_singleton.mpr rfl) Day.Montag
    (by decide) Time.t14_16 (by decide) (by decide)

end Workplan

